import Mathlib

/-! Adaptive arithmetic coder and bit stream primitives.

A shallow embedding of `arith.go` (`Model`, `ArithmeticCoder.Compress`,
`ArithmeticCoder.Decompress`) and of the package `bits_io` (`BitWriter`, `BitReader`),
followed by theorems about them.

Conventions of the embedding:

* a Go `byte` is a `Fin 256`; a `[]byte` is a `List Byte`;
* a Go `uint64` is a `Nat` kept below `2 ^ 64`; every operation that can leave that range
  (`+`, `-`, `*`, `<<`, `++`) is followed by an explicit `% 2 ^ 64`;
* the fixed-size arrays of `Model` are lists, read with `List.getD` and written with `List.set`;
  the loop of `updateCumulative` is the running sum `cumulativeFrom`;
* the logging of `Compress` (creation of the log file and `Fprintf`) has no effect on the
  returned bytes and is left out; `Compress` panics when the log file cannot be created, which
  is outside of this embedding;
* a loop whose number of iterations is not a fixed bound of the source takes a `fuel` argument.
-/

namespace ArithCoder

/-- A Go `byte`. -/
abbrev Byte := Fin 256

/-- The conversion `byte(x)` of an unsigned integer: the low eight bits. -/
def toByte (x : Nat) : Byte := ⟨x % 256, Nat.mod_lt x (by decide)⟩

/-- Wrap a natural number to the range of `uint64`. -/
def u64 (x : Nat) : Nat := x % 2 ^ 64

/-- Subtraction of `uint64` values, wrapping around. -/
def sub64 (x y : Nat) : Nat := (x + (2 ^ 64 - y % 2 ^ 64)) % 2 ^ 64

/-- The constant `Precision = 40`. -/
def Precision : Nat := 40

/-- The constant `TopValue = (1 << Precision) - 1`. -/
def TopValue : Nat := (1 <<< Precision) - 1

/-- The constant `EOF = 256`, the end-of-stream symbol. -/
def EOF : Nat := 256

/-- The constant `TotalSymbolFreq = 257`. -/
def TotalSymbolFreq : Nat := 257

/-- The struct `Model`: `Freq` has `TotalSymbolFreq + 1` entries and `CumFreqs` has
`TotalSymbolFreq + 2` entries. -/
structure Model where
  Freq : List Nat
  CumFreqs : List Nat
deriving DecidableEq, Repr

/-- The loop of `updateCumulative` over the entries `Freq[i-1], Freq[i], ...` that are still to
be added, where `acc` is the value of `CumFreqs[i-1]`: it yields the new values of
`CumFreqs[i], CumFreqs[i+1], ...`, each being `CumFreqs[i-1] + Freq[i-1]`. -/
def cumulativeFrom : List Nat → Nat → List Nat
  | [], _ => []
  | f :: fs, acc => u64 (acc + f) :: cumulativeFrom fs (u64 (acc + f))

/-- The method `updateCumulative`: `CumFreqs[0] = 0`, then `CumFreqs[i] = CumFreqs[i-1] +
Freq[i-1]` for `i = 1 .. EOF+1`; the entries of `CumFreqs` after index `EOF+1` are not written. -/
def Model.updateCumulative (m : Model) : Model :=
  { m with
    CumFreqs := 0 :: cumulativeFrom (m.Freq.take (EOF + 1)) 0 ++ m.CumFreqs.drop (EOF + 2) }

/-- The function `NewInitialModel`: zero-valued arrays, `Freq[i] = 1` for `i = 0 .. EOF`,
then `updateCumulative`. -/
def NewInitialModel : Model :=
  Model.updateCumulative
    { Freq := List.replicate (EOF + 1) 1 ++ List.replicate (TotalSymbolFreq + 1 - (EOF + 1)) 0
      CumFreqs := List.replicate (TotalSymbolFreq + 2) 0 }

/-- The two statements `model.Freq[sym]++; model.updateCumulative()`. -/
def Model.update (m : Model) (sym : Nat) : Model :=
  Model.updateCumulative { m with Freq := m.Freq.set sym (u64 (m.Freq.getD sym 0 + 1)) }

/-- The narrowing `newLow := low + (rangeSize*lowFreq)/total`. -/
def narrowLow (low rangeSize lowFreq total : Nat) : Nat :=
  u64 (low + u64 (rangeSize * lowFreq) / total)

/-- The narrowing `newHigh := low + (rangeSize*highFreq)/total - 1`. -/
def narrowHigh (low rangeSize highFreq total : Nat) : Nat :=
  sub64 (u64 (low + u64 (rangeSize * highFreq) / total)) 1

/-- The byte-settle update of `low`: `(low << 8) & TopValue`. -/
def shiftLow (low : Nat) : Nat := u64 (low <<< 8) &&& TopValue

/-- The byte-settle update of `high`: `((high << 8) | 0xFF) & TopValue`. -/
def shiftHigh (high : Nat) : Nat := (u64 (high <<< 8) ||| 0xFF) &&& TopValue

/-- The underflow update of `low` or `high`: bytes `b0 b2 b3 b4` of `x` followed by `fill`. -/
def collapse (x fill : Nat) : Nat :=
  let b0 := (x >>> 32) &&& 0xFF
  let b2 := (x >>> 16) &&& 0xFF
  let b3 := (x >>> 8) &&& 0xFF
  let b4 := x &&& 0xFF
  (b0 <<< 32) ||| (b2 <<< 24) ||| (b3 <<< 16) ||| (b4 <<< 8) ||| fill

/-- The condition of the `else if` branch of the renormalisation loop of `Compress`. -/
def underflowCond (low high : Nat) : Prop :=
  (low >>> 32) + 1 = high >>> 32 ∧ (low >>> 24) &&& 0xFF = 0xFF ∧ (high >>> 24) &&& 0xFF = 0x00

instance (low high : Nat) : Decidable (underflowCond low high) := by
  unfold underflowCond; exact inferInstance

/-- The renormalisation loop of `Compress` is at its `break`: neither the byte-settle test nor
the underflow test holds. -/
def renormDone (low high : Nat) : Prop :=
  low >>> 32 ≠ high >>> 32 ∧ ¬ underflowCond low high

/-- The inner `for` loop of `Compress` on `low`, `high` and `output`, run for at most `fuel`
iterations; five are always enough to reach the `break` (theorem `encRenorm_done`). -/
def encRenorm : Nat → Nat → Nat → List Byte → Nat × Nat × List Byte
  | 0, low, high, output => (low, high, output)
  | fuel + 1, low, high, output =>
    if low >>> 32 = high >>> 32 then
      encRenorm fuel (shiftLow low) (shiftHigh high) (output ++ [toByte (low >>> 32)])
    else if underflowCond low high then
      encRenorm fuel (collapse low 0x00) (collapse high 0xFF) (output ++ [toByte (low >>> 32)])
    else
      (low, high, output)

/-- The local state of `Compress` between two symbols. -/
structure EncState where
  model : Model
  low : Nat
  high : Nat
  output : List Byte
deriving DecidableEq, Repr

/-- The body of the loop `for _, sym := range intData` of `Compress`. -/
def encodeSymbol (st : EncState) (sym : Nat) : EncState :=
  let total := st.model.CumFreqs.getD (EOF + 1) 0
  let lowFreq := st.model.CumFreqs.getD sym 0
  let highFreq := st.model.CumFreqs.getD (sym + 1) 0
  let rangeSize := u64 (sub64 st.high st.low + 1)
  let newLow := narrowLow st.low rangeSize lowFreq total
  let newHigh := narrowHigh st.low rangeSize highFreq total
  let r := encRenorm 5 newLow newHigh st.output
  { model := st.model.update sym, low := r.1, high := r.2.1, output := r.2.2 }

/-- The state of `Compress` before the first symbol. -/
def encInit : EncState :=
  { model := NewInitialModel, low := 0, high := TopValue, output := [] }

/-- The finalisation of `Compress` with `removedBytes = 0`: the five bytes
`byte((low >> (8*(4-i))) & 0xFF)` for `i = 0 .. 4`. -/
def finalBytes (low : Nat) : List Byte :=
  (List.range 5).map fun i => toByte ((low >>> (8 * (4 - i))) &&& 0xFF)

/-- The slice `intData` of `Compress`: the bytes of `data` as integers, then `EOF`. -/
def intData (data : List Byte) : List Nat := data.map (fun b => b.val) ++ [EOF]

/-- The method `ArithmeticCoder.Compress`. The variables `removedBytes` and `savedLow` are never
assigned after their initialisation to zero, so the first finalisation loop runs zero times. -/
def Compress (data : List Byte) : List Byte :=
  let st := (intData data).foldl encodeSymbol encInit
  st.output ++ finalBytes st.low

/-- The outcomes of `Decompress`: the decoded bytes, one of its three `fmt.Errorf` results, or
the run-time panic of an integer division by zero. -/
inductive DecodeResult where
  | ok (decoded : List Byte)
  | tooShort
  | symbolNotFound
  | unexpectedEnd
  | divideByZero
deriving DecidableEq, Repr

/-- The symbol search of `Decompress`: the loop `for i := 0; i <= EOF; i++` looking for the first
`i` with `CumFreqs[i] <= value && value < CumFreqs[i+1]`; `n` iterations are left.
The result `none` stands for `sym == -1`. -/
def findSymbol (cum : List Nat) (value : Nat) : Nat → Nat → Option Nat
  | 0, _ => none
  | n + 1, i =>
    if cum.getD i 0 ≤ value ∧ value < cum.getD (i + 1) 0 then some i
    else findSymbol cum value n (i + 1)

/-- The inner `for` loop of `Decompress`. The slice `encoded` and the index `pos` are
represented by `rest`, the bytes of `encoded` from `pos` on; `none` is the error return
"fin inattendue des données". -/
def decRenorm (low high code : Nat) : List Byte → Option (Nat × Nat × Nat × List Byte)
  | [] => if low >>> 32 = high >>> 32 then none else some (low, high, code, [])
  | nextByte :: rest1 =>
    if low >>> 32 = high >>> 32 then
      decRenorm (shiftLow low) (shiftHigh high)
        ((u64 (code <<< 8) ||| nextByte.val) &&& TopValue) rest1
    else
      some (low, high, code, nextByte :: rest1)

/-- The outer `for` loop of `Decompress`, run for at most `fuel` iterations; `none` means that
the loop is still running after `fuel` iterations. -/
def decodeLoop : Nat → Model → Nat → Nat → Nat → List Byte → List Byte → Option DecodeResult
  | 0, _, _, _, _, _, _ => none
  | fuel + 1, model, low, high, code, rest, decoded =>
    let rangeSize := u64 (sub64 high low + 1)
    let total := model.CumFreqs.getD (EOF + 1) 0
    if rangeSize = 0 then some DecodeResult.divideByZero
    else
      let value := sub64 (u64 (u64 (sub64 code low + 1) * total)) 1 / rangeSize
      match findSymbol model.CumFreqs value (EOF + 1) 0 with
      | none => some DecodeResult.symbolNotFound
      | some sym =>
        if sym = EOF then some (DecodeResult.ok decoded)
        else if total = 0 then some DecodeResult.divideByZero
        else
          let newLow := narrowLow low rangeSize (model.CumFreqs.getD sym 0) total
          let newHigh := narrowHigh low rangeSize (model.CumFreqs.getD (sym + 1) 0) total
          match decRenorm newLow newHigh code rest with
          | none => some DecodeResult.unexpectedEnd
          | some (low1, high1, code1, rest1) =>
            decodeLoop fuel (model.update sym) low1 high1 code1 rest1 (decoded ++ [toByte sym])

/-- The method `ArithmeticCoder.Decompress`, its outer loop run for at most `fuel` iterations. -/
def Decompress (fuel : Nat) (encoded : List Byte) : Option DecodeResult :=
  match encoded with
  | e0 :: e1 :: e2 :: e3 :: e4 :: rest =>
    let code := (e0.val <<< 32) ||| (e1.val <<< 24) ||| (e2.val <<< 16) ||| (e3.val <<< 8) ||| e4.val
    decodeLoop fuel NewInitialModel 0 TopValue code rest []
  | _ => some DecodeResult.tooShort

/-- The narrowing step of the loop body of `Compress`: the values of `newLow` and `newHigh`
computed from the state and the symbol, before the renormalisation loop. -/
def encNarrow (st : EncState) (sym : Nat) : Nat × Nat :=
  let total := st.model.CumFreqs.getD (EOF + 1) 0
  let lowFreq := st.model.CumFreqs.getD sym 0
  let highFreq := st.model.CumFreqs.getD (sym + 1) 0
  let rangeSize := u64 (sub64 st.high st.low + 1)
  (narrowLow st.low rangeSize lowFreq total, narrowHigh st.low rangeSize highFreq total)

/-- Whether the renormalisation loop of `Compress`, started on `low` and `high`, takes its
underflow branch within `fuel` iterations. An iteration that follows an underflow iteration is
an underflow iteration too, so it is enough to look at the first iteration that is not a
byte-settle. -/
def renormUnderflows : Nat → Nat → Nat → Bool
  | 0, _, _ => false
  | fuel + 1, low, high =>
    if low >>> 32 = high >>> 32 then renormUnderflows fuel (shiftLow low) (shiftHigh high)
    else decide (underflowCond low high)

/-- Whether the loop of `Compress`, run from the state `st` on the symbols `syms`, takes the
underflow branch of its renormalisation loop for one of them. -/
def encodeUnderflows (st : EncState) : List Nat → Bool
  | [] => false
  | sym :: rest =>
    renormUnderflows 5 (encNarrow st sym).1 (encNarrow st sym).2 ||
      encodeUnderflows (encodeSymbol st sym) rest

/-- Whether `Compress` takes the underflow branch of its renormalisation loop on `data`. -/
def CompressUnderflows (data : List Byte) : Bool := encodeUnderflows encInit (intData data)

/-- The two finalisation loops of `Compress` for given values of `removedBytes`, `savedLow`,
`low` and `output`, with `removedBytes <= 5`: the first appends bytes of `savedLow` for
`i = 0 .. removedBytes - 1`, the second bytes of `low` for `i = removedBytes .. 4`. -/
def finalize (removedBytes savedLow low : Nat) (output : List Byte) : List Byte :=
  output ++
    ((List.range removedBytes).map fun i => toByte ((savedLow >>> (8 * (4 - i))) &&& 0xFF)) ++
    (((List.range 5).drop removedBytes).map fun i => toByte ((low >>> (8 * (4 - i))) &&& 0xFF))

/-- The model's total `CumFreqs[EOF+1]`. -/
def Model.total (m : Model) : Nat := m.CumFreqs.getD (EOF + 1) 0

/-- The invariant of the frequency model, in exact integer arithmetic: the arrays have their
declared sizes, `CumFreqs[0] = 0`, and `CumFreqs[s+1] = CumFreqs[s] + Freq[s]` for every symbol
`s = 0 .. EOF`. -/
def ModelInv (m : Model) : Prop :=
  m.Freq.length = TotalSymbolFreq + 1 ∧ m.CumFreqs.length = TotalSymbolFreq + 2 ∧
  m.CumFreqs.getD 0 0 = 0 ∧
  ∀ s, s < TotalSymbolFreq → m.CumFreqs.getD (s + 1) 0 = m.CumFreqs.getD s 0 + m.Freq.getD s 0

instance (m : Model) : Decidable (ModelInv m) := by
  unfold ModelInv; exact inferInstance

/-- Every symbol `0 .. EOF` has a frequency of at least one. -/
def ModelPos (m : Model) : Prop := ∀ s, s < TotalSymbolFreq → 1 ≤ m.Freq.getD s 0

instance (m : Model) : Decidable (ModelPos m) := by
  unfold ModelPos; exact inferInstance

/-- `CumFreqs` is non-decreasing over the indices `0 .. EOF+1`. -/
def CumMonotone (m : Model) : Prop :=
  ∀ i, i < TotalSymbolFreq → m.CumFreqs.getD i 0 ≤ m.CumFreqs.getD (i + 1) 0

instance (m : Model) : Decidable (CumMonotone m) := by
  unfold CumMonotone; exact inferInstance

/-- The 40-bit window of a byte stream: its first five bytes as a big-endian integer. -/
def window (bytes : List Byte) : Nat :=
  (bytes.take 5).foldl (fun acc c => acc * 256 + c.val) 0

/-- The expression `((code - low + 1) * total - 1) / rangeSize` of `Decompress`. -/
def decodeValue (low high code total : Nat) : Nat :=
  sub64 (u64 (u64 (sub64 code low + 1) * total)) 1 / u64 (sub64 high low + 1)

/-- The invariant of the state of `Compress` between two symbols, after `k` symbols: the model
satisfies its invariant with positive frequencies and total `257 + k`, and the interval
satisfies `low <= high < 2^40` with more than `2^24` values. -/
def EncInv (st : EncState) (k : Nat) : Prop :=
  ModelInv st.model ∧ ModelPos st.model ∧ st.model.total = 257 + k ∧
  st.low ≤ st.high ∧ st.high < 2 ^ 40 ∧ 2 ^ 24 ≤ st.high - st.low

/-- The invariant of the frequency model as the code computes it, in `uint64` arithmetic: the
arrays have their declared sizes and hold `uint64` values, `CumFreqs[0] = 0`, and the `uint64`
difference `CumFreqs[s+1] - CumFreqs[s]` is `Freq[s]` for every symbol `s = 0 .. EOF`. -/
def ModelInv64 (m : Model) : Prop :=
  m.Freq.length = TotalSymbolFreq + 1 ∧ m.CumFreqs.length = TotalSymbolFreq + 2 ∧
  (∀ s, s < TotalSymbolFreq → m.Freq.getD s 0 < 2 ^ 64) ∧
  (∀ i, i ≤ TotalSymbolFreq → m.CumFreqs.getD i 0 < 2 ^ 64) ∧
  m.CumFreqs.getD 0 0 = 0 ∧
  ∀ s, s < TotalSymbolFreq →
    sub64 (m.CumFreqs.getD (s + 1) 0) (m.CumFreqs.getD s 0) = m.Freq.getD s 0

instance (m : Model) : Decidable (ModelInv64 m) := by
  unfold ModelInv64; exact inferInstance

/-- The state of `Compress` on `data` after its first `j` symbols. -/
def encStateAt (data : List Byte) (j : Nat) : EncState :=
  ((intData data).take j).foldl encodeSymbol encInit

/-- The symbol of index `j` processed by `Compress` on `data`. -/
def symAt (data : List Byte) (j : Nat) : Nat := (intData data).getD j 0

end ArithCoder

/-! The package `bits_io`.

The methods of `BitWriter` and `BitReader` have pointer receivers and return an `error`. They are
embedded as functions from the receiver's state to an `Outcome`, which holds the state of the
receiver when the method returns, and either the returned value or the returned error. A run-time
panic (index out of range, negative shift count) is the third outcome.

The field `len` of a `BitWriter` and the field `offset` of a `BitReader` start at zero and are
only ever increased, so they are natural numbers; the field `len` of a `BitReader` is decreased
by `Unpad` and is an integer. The arguments `nb` are Go `int`s, hence integers.
-/

namespace bits_io

open ArithCoder (Byte toByte u64 sub64)

/-- The errors returned by the methods of the package, named after their messages. -/
inductive Err where
  | cannotWrite
  | doesNotFit
  | notMultipleOf8
  | cannotRead
  | notEnoughBits
  | noPadding
deriving DecidableEq, Repr

/-- What a method call does: it returns normally with `value`, or returns the error `e`, in both
cases leaving the receiver in `state`; or it panics. -/
inductive Outcome (σ α : Type) where
  | ok (state : σ) (value : α)
  | error (state : σ) (e : Err)
  | panic
deriving DecidableEq, Repr

/-- Wrap a natural number to the range of `byte`. -/
def u8 (x : Nat) : Nat := x % 2 ^ 8

/-- Subtraction of `byte` values, wrapping around. -/
def sub8 (x y : Nat) : Nat := (x + (2 ^ 8 - y % 2 ^ 8)) % 2 ^ 8

/-- The struct `BitWriter`. -/
structure BitWriter where
  bytes : List Byte
  len : Nat
deriving DecidableEq, Repr

/-- The function `NewWriter`: the zero value of `BitWriter`. -/
def NewWriter : BitWriter := { bytes := [], len := 0 }

/-- The method `BitWriter.Len`. -/
def BitWriter.Len (b : BitWriter) : Nat := b.len

/-- The loop `for nb > 0` of `WriteBits`, run for at most `fuel` iterations; every iteration
lowers `nb` by `t >= 1`, so `fuel = nb` is enough (theorem `writeLoop_fuel`). The result `none`
is the panic of `b.bytes[len(b.bytes)-1]` on an empty buffer. -/
def writeLoop : Nat → BitWriter → Nat → Nat → Option BitWriter
  | 0, b, _, _ => some b
  | fuel + 1, b, w, nb =>
    if nb = 0 then some b
    else
      let s := b.len % 8
      let bytes1 := if s = 0 then b.bytes ++ [(0x00 : Byte)] else b.bytes
      let r := 8 - s
      let t := min r nb
      let msb := w >>> (nb - t)
      match bytes1.getLast? with
      | none => none
      | some last =>
        writeLoop fuel
          { bytes := bytes1.dropLast ++ [toByte (last.val ^^^ (toByte (u64 (msb <<< (r - t)))).val)]
            len := b.len + t }
          (w &&& sub64 (u64 (1 <<< (nb - t))) 1) (nb - t)

/-- The method `BitWriter.WriteBits`. With `nb < 0` the expression `1<<nb` panics. -/
def WriteBits (b : BitWriter) (w : Nat) (nb : Int) : Outcome BitWriter Unit :=
  if nb > 64 then Outcome.error b Err.cannotWrite
  else if nb < 0 then Outcome.panic
  else if nb < 63 ∧ w ≥ u64 (1 <<< nb.toNat) then Outcome.error b Err.doesNotFit
  else
    match writeLoop nb.toNat b w nb.toNat with
    | some b1 => Outcome.ok b1 ()
    | none => Outcome.panic

/-- The method `BitWriter.Pad`, which drops the error of `WriteBits`; `none` is a panic. -/
def Pad (b : BitWriter) : Option BitWriter :=
  let nb := 8 - b.len % 8
  let w := u64 (1 <<< (nb - 1))
  match WriteBits b w (nb : Int) with
  | Outcome.ok b1 _ => some b1
  | Outcome.error b1 _ => some b1
  | Outcome.panic => none

/-- The method `BitWriter.ToBytes`. The slice expression `b.bytes[0 : b.len/8]` panics when its
bound exceeds the capacity of the buffer, which is taken to be its length. -/
def ToBytes (b : BitWriter) : Outcome BitWriter (List Byte) :=
  if b.len % 8 = 0 then
    if b.len / 8 ≤ b.bytes.length then Outcome.ok b (b.bytes.take (b.len / 8))
    else Outcome.panic
  else Outcome.error b Err.notMultipleOf8

/-- The struct `BitReader`. -/
structure BitReader where
  bytes : List Byte
  offset : Nat
  len : Int
deriving DecidableEq, Repr

/-- The function `NewReader`. -/
def NewReader (bs : List Byte) : BitReader := { bytes := bs, offset := 0, len := bs.length * 8 }

/-- The method `BitReader.Len`. -/
def BitReader.Len (b : BitReader) : Int := b.len - b.offset

/-- The loop `for nb > 0` of `ReadBits` on the reader and the accumulator `w`, run for at most
`fuel` iterations; every iteration lowers `nb` by `t >= 1`, so `fuel = nb` is enough (theorem
`readLoop_fuel`). The mask `1<<s - 1` is computed on bytes. The result `none` is the panic of
`b.bytes[b.offset/8]`. -/
def readLoop : Nat → BitReader → Nat → Nat → Option (BitReader × Nat)
  | 0, b, w, _ => some (b, w)
  | fuel + 1, b, w, nb =>
    if nb = 0 then some (b, w)
    else
      match b.bytes[b.offset / 8]? with
      | none => none
      | some c =>
        let s := 8 - b.offset % 8
        let n := c.val &&& sub8 (u8 (1 <<< s)) 1
        let t := min s nb
        let n1 := n >>> (s - t)
        readLoop fuel { b with offset := b.offset + t } (u64 (w <<< t) ||| n1) (nb - t)

/-- The method `BitReader.ReadBits`. -/
def ReadBits (b : BitReader) (nb : Int) : Outcome BitReader Nat :=
  if nb > 64 then Outcome.error b Err.cannotRead
  else if (b.offset : Int) + nb > b.len then Outcome.error b Err.notEnoughBits
  else
    match readLoop nb.toNat b 0 nb.toNat with
    | some (b1, w) => Outcome.ok b1 w
    | none => Outcome.panic

/-- The loop `for i := range 8` of `Unpad`, where `lastByte` is `b.bytes[last]`; `n` iterations
are left and the loop variable is `i`. The mask `1<<(i+1) - 1` is computed on bytes. -/
def unpadLoop (b : BitReader) (lastByte : Byte) : Nat → Nat → Outcome BitReader Unit
  | 0, _ => Outcome.error b Err.noPadding
  | n + 1, i =>
    if lastByte.val &&& sub8 (u8 (1 <<< (i + 1))) 1 = u8 (1 <<< i) then
      Outcome.ok
        { bytes := if i + 1 = 8 then b.bytes.take (b.bytes.length - 1) else b.bytes
          offset := b.offset
          len := b.len - ((i : Int) + 1) } ()
    else unpadLoop b lastByte n (i + 1)

/-- The method `BitReader.Unpad`. On an empty buffer `last` is `-1` and `b.bytes[last]`
panics. -/
def Unpad (b : BitReader) : Outcome BitReader Unit :=
  match b.bytes.getLast? with
  | none => Outcome.panic
  | some lastByte => unpadLoop b lastByte 8 0

/-- The bit of index `j` of a buffer, the bits of a byte being counted from the most
significant one. -/
def bitAt (bytes : List Byte) (j : Nat) : Bool := (bytes.getD (j / 8) 0).val.testBit (7 - j % 8)

/-- The bit sequence held by a writer: the first `len` bits of its buffer. -/
def BitWriter.bits (b : BitWriter) : List Bool := (List.range b.len).map (bitAt b.bytes)

/-- The lowest `n` bits of `w`, the most significant of them first. -/
def lowBits (w n : Nat) : List Bool := (List.range n).map fun k => w.testBit (n - 1 - k)

/-- The representation invariant of a writer: the buffer has just enough bytes for `len` bits and
the bits of the last byte that are not yet written are zero. The fields of a `BitWriter` are not
exported, so the states of a writer are those reached from `NewWriter` by `WriteBits` and `Pad`;
they all satisfy the invariant (theorems `NewWriter_WF`, `WriteBits_WF`, `Pad_WF`). -/
def BitWriter.WF (b : BitWriter) : Prop :=
  b.bytes.length = (b.len + 7) / 8 ∧
  (b.bytes.getLastD 0).val % 2 ^ (8 * b.bytes.length - b.len) = 0

instance (b : BitWriter) : Decidable b.WF := by
  unfold BitWriter.WF; exact inferInstance

/-- The number whose base-256 digits, most significant first, are the bytes of a buffer. -/
def bval (bytes : List Byte) : Nat := bytes.foldl (fun acc c => acc * 256 + c.val) 0

/-- The number whose binary digits, most significant first, are the `len` bits held by a
writer. -/
def BitWriter.value (b : BitWriter) : Nat := bval b.bytes / 2 ^ (8 * b.bytes.length - b.len)

/-- The number whose binary digits, most significant first, are the `n` bits of a buffer that
start at the bit of index `o`. -/
def fieldAt (bytes : List Byte) (o n : Nat) : Nat :=
  bval bytes / 2 ^ (8 * bytes.length - (o + n)) % 2 ^ n

/-- The sum of the widths of a list of pairs `(value, width)`. -/
def packWidth : List (Nat × Nat) → Nat
  | [] => 0
  | (_, n) :: rest => n + packWidth rest

/-- The number obtained by writing the values of a list of pairs `(value, width)` one after the
other, each on its width. -/
def packValue : List (Nat × Nat) → Nat
  | [] => 0
  | (v, _) :: rest => v * 2 ^ packWidth rest + packValue rest

/-- Write the pairs `(value, width)` of a list in order with `WriteBits`; `none` as soon as one
call does not return normally. -/
def writeAll : BitWriter → List (Nat × Nat) → Option BitWriter
  | b, [] => some b
  | b, (v, n) :: rest =>
    match WriteBits b v (n : Int) with
    | Outcome.ok b1 _ => writeAll b1 rest
    | _ => none

/-- Read fields of the given widths in order with `ReadBits`; `none` as soon as one call does
not return normally. -/
def readAll : BitReader → List Nat → Option (BitReader × List Nat)
  | b, [] => some (b, [])
  | b, n :: rest =>
    match ReadBits b (n : Int) with
    | Outcome.ok b1 v =>
      match readAll b1 rest with
      | some (b2, vs) => some (b2, v :: vs)
      | none => none
    | _ => none

/-- The integer whose binary digits, most significant first, are the given bits. -/
def bitsValue (bits : List Bool) : Nat := bits.foldl (fun acc c => 2 * acc + c.toNat) 0

/-- The `n` bits of a buffer that start at the bit of index `o`. -/
def bitsFrom (bytes : List Byte) (o n : Nat) : List Bool :=
  (List.range n).map fun k => bitAt bytes (o + k)

end bits_io

namespace ArithCoder

/-! ## The renormalisation loop of `Compress` stops within five iterations -/

theorem TopValue_eq : TopValue = 2 ^ 40 - 1 := by decide

theorem and_255 (x : Nat) : x &&& 0xFF = x % 256 := by
  have : (0xFF : Nat) = 2 ^ 8 - 1 := by norm_num
  rw [this, Nat.and_pow_two_sub_one_eq_mod]

theorem shiftLow_eq (low : Nat) : shiftLow low = low * 256 % 2 ^ 40 := by
  unfold shiftLow u64
  rw [TopValue_eq, Nat.and_pow_two_sub_one_eq_mod, Nat.shiftLeft_eq]
  omega

theorem shiftHigh_eq (high : Nat) : shiftHigh high = (high * 256 + 255) % 2 ^ 40 := by
  unfold shiftHigh u64
  rw [TopValue_eq, Nat.and_pow_two_sub_one_eq_mod, Nat.shiftLeft_eq]
  have h1 : high * 2 ^ 8 % 2 ^ 64 = 2 ^ 8 * (high % 2 ^ 56) := by omega
  rw [h1, ← Nat.mul_add_lt_is_or (by decide : 255 < 2 ^ 8)]
  omega

theorem collapse_eq (x fill : Nat) (hfill : fill < 256) :
    collapse x fill = (x / 2 ^ 32 % 256) * 2 ^ 32 + (x % 2 ^ 24) * 256 + fill := by
  unfold collapse
  simp only [and_255, Nat.shiftRight_eq_div_pow, Nat.shiftLeft_eq]
  have e1 : x / 2 ^ 32 % 256 * 2 ^ 32 ||| x / 2 ^ 16 % 256 * 2 ^ 24 =
      2 ^ 24 * (x / 2 ^ 32 % 256 * 256 + x / 2 ^ 16 % 256) := by
    rw [show x / 2 ^ 32 % 256 * 2 ^ 32 = 2 ^ 32 * (x / 2 ^ 32 % 256) by ring,
      ← Nat.mul_add_lt_is_or (by omega)]
    ring
  have e2 : 2 ^ 24 * (x / 2 ^ 32 % 256 * 256 + x / 2 ^ 16 % 256) ||| x / 2 ^ 8 % 256 * 2 ^ 16 =
      2 ^ 16 * ((x / 2 ^ 32 % 256 * 256 + x / 2 ^ 16 % 256) * 256 + x / 2 ^ 8 % 256) := by
    rw [← Nat.mul_add_lt_is_or (by omega)]
    ring
  have e3 : 2 ^ 16 * ((x / 2 ^ 32 % 256 * 256 + x / 2 ^ 16 % 256) * 256 + x / 2 ^ 8 % 256) |||
      x % 256 * 2 ^ 8 =
      2 ^ 8 * (((x / 2 ^ 32 % 256 * 256 + x / 2 ^ 16 % 256) * 256 + x / 2 ^ 8 % 256) * 256 +
        x % 256) := by
    rw [← Nat.mul_add_lt_is_or (by omega)]
    ring
  rw [e1, e2, e3, ← Nat.mul_add_lt_is_or (by omega)]
  omega

theorem underflowCond_iff (low high : Nat) :
    underflowCond low high ↔
      low / 2 ^ 32 + 1 = high / 2 ^ 32 ∧ low / 2 ^ 24 % 256 = 255 ∧ high / 2 ^ 24 % 256 = 0 := by
  unfold underflowCond
  simp only [and_255, Nat.shiftRight_eq_div_pow]

theorem renormDone_iff (low high : Nat) :
    renormDone low high ↔
      low / 2 ^ 32 ≠ high / 2 ^ 32 ∧
      ¬ (low / 2 ^ 32 + 1 = high / 2 ^ 32 ∧ low / 2 ^ 24 % 256 = 255 ∧
        high / 2 ^ 24 % 256 = 0) := by
  unfold renormDone
  rw [underflowCond_iff]
  simp only [Nat.shiftRight_eq_div_pow]

theorem encRenorm_done_after_underflow :
    ∀ (fuel k low high : Nat) (output : List Byte), k ≤ 4 → 4 ≤ k + fuel →
      low < 2 ^ 40 → high < 2 ^ 40 → low / 2 ^ 32 ≠ high / 2 ^ 32 → low % 2 ^ (8 * k) = 0 →
      renormDone (encRenorm fuel low high output).1 (encRenorm fuel low high output).2.1 := by
  intro fuel
  induction fuel with
  | zero =>
    intro k low high output hk hfuel hl hh hne hmod
    have hk4 : k = 4 := by omega
    subst hk4
    simp only [encRenorm]
    rw [renormDone_iff]
    exact ⟨hne, by omega⟩
  | succ fuel ih =>
    intro k low high output hk hfuel hl hh hne hmod
    rw [encRenorm]
    simp only [Nat.shiftRight_eq_div_pow]
    rw [if_neg hne]
    split
    · rename_i hu
      rw [underflowCond_iff] at hu
      have hk3 : k ≤ 3 := by
        by_contra hk4
        have hk4 : k = 4 := by omega
        subst hk4
        omega
      apply ih (k + 1) _ _ _ (by omega) (by omega)
      · rw [collapse_eq _ _ (by decide)]; omega
      · rw [collapse_eq _ _ (by decide)]; omega
      · rw [collapse_eq _ _ (by decide), collapse_eq _ _ (by decide)]; omega
      · rw [collapse_eq _ _ (by decide)]
        interval_cases k <;> omega
    · rename_i hu
      rw [renormDone_iff, ← underflowCond_iff]
      exact ⟨hne, hu⟩

theorem encRenorm_done_from :
    ∀ (fuel k low high : Nat) (output : List Byte), k ≤ 5 → 5 ≤ k + fuel →
      (k = 0 ∨ (low < 2 ^ 40 ∧ high < 2 ^ 40)) →
      low % 2 ^ (8 * k) = 0 → high % 2 ^ (8 * k) = 2 ^ (8 * k) - 1 →
      renormDone (encRenorm fuel low high output).1 (encRenorm fuel low high output).2.1 := by
  intro fuel
  induction fuel with
  | zero =>
    intro k low high output hk hfuel hb hl hh
    have hk5 : k = 5 := by omega
    subst hk5
    simp only [encRenorm]
    rw [renormDone_iff]
    omega
  | succ fuel ih =>
    intro k low high output hk hfuel hb hl hh
    rw [encRenorm]
    simp only [Nat.shiftRight_eq_div_pow]
    split
    · rename_i heq
      have hk4 : k ≤ 4 := by
        by_contra hk5
        have hk5 : k = 5 := by omega
        subst hk5
        omega
      apply ih (k + 1) _ _ _ (by omega) (by omega)
      · right
        rw [shiftLow_eq, shiftHigh_eq]
        exact ⟨Nat.mod_lt _ (by decide), Nat.mod_lt _ (by decide)⟩
      · rw [shiftLow_eq]
        interval_cases k <;> omega
      · rw [shiftHigh_eq]
        interval_cases k <;> omega
    · rename_i hne
      split
      · rename_i hu
        rw [underflowCond_iff] at hu
        have hk3 : k ≤ 3 := by
          by_contra hk4
          have hk4 : k = 4 ∨ k = 5 := by omega
          rcases hk4 with rfl | rfl <;> omega
        apply encRenorm_done_after_underflow fuel (k + 1) _ _ _ (by omega) (by omega)
        · rw [collapse_eq _ _ (by decide)]; omega
        · rw [collapse_eq _ _ (by decide)]; omega
        · rw [collapse_eq _ _ (by decide), collapse_eq _ _ (by decide)]; omega
        · rw [collapse_eq _ _ (by decide)]
          interval_cases k <;> omega
      · rename_i hu
        rw [renormDone_iff, ← underflowCond_iff]
        exact ⟨hne, hu⟩

theorem encRenorm_done (low high : Nat) (output : List Byte) :
    renormDone (encRenorm 5 low high output).1 (encRenorm 5 low high output).2.1 :=
  encRenorm_done_from 5 0 low high output (by decide) (by decide) (Or.inl rfl)
    (by simp [Nat.mod_one]) (by simp [Nat.mod_one])

/-! ## Lemmas on the decoder -/

theorem decRenorm_append (t : List Byte) :
    ∀ (rest : List Byte) (low high code low1 high1 code1 : Nat) (rest1 : List Byte),
      decRenorm low high code rest = some (low1, high1, code1, rest1) →
      decRenorm low high code (rest ++ t) = some (low1, high1, code1, rest1 ++ t) := by
  intro rest
  induction rest with
  | nil =>
    intro low high code low1 high1 code1 rest1 h
    simp only [decRenorm] at h
    split at h
    · exact absurd h (by simp)
    · rename_i hne
      simp only [Option.some.injEq, Prod.mk.injEq] at h
      obtain ⟨rfl, rfl, rfl, rfl⟩ := h
      cases t with
      | nil => simp [decRenorm, hne]
      | cons a t => simp [decRenorm, hne]
  | cons b rest ih =>
    intro low high code low1 high1 code1 rest1 h
    simp only [decRenorm] at h
    simp only [List.cons_append, decRenorm]
    split at h
    · rename_i heq
      rw [if_pos heq]
      exact ih _ _ _ _ _ _ _ h
    · rename_i hne
      rw [if_neg hne]
      simp only [Option.some.injEq, Prod.mk.injEq] at h
      obtain ⟨rfl, rfl, rfl, rfl⟩ := h
      simp

theorem decodeLoop_append (t : List Byte) :
    ∀ (fuel : Nat) (model : Model) (low high code : Nat) (rest decoded : List Byte),
      decodeLoop fuel model low high code rest decoded ≠ some DecodeResult.unexpectedEnd →
      decodeLoop fuel model low high code (rest ++ t) decoded =
        decodeLoop fuel model low high code rest decoded := by
  intro fuel
  induction fuel with
  | zero => intros; simp [decodeLoop]
  | succ fuel ih =>
    intro model low high code rest decoded h
    simp only [decodeLoop] at h ⊢
    split
    · rfl
    · rename_i hr
      rw [if_neg hr] at h
      split
      · rfl
      · rename_i sym hsym
        rw [hsym] at h
        simp only at h
        split
        · rfl
        · rename_i hne
          rw [if_neg hne] at h
          split
          · rfl
          · rename_i ht
            rw [if_neg ht] at h
            cases hd : decRenorm (narrowLow low (u64 (sub64 high low + 1)) (model.CumFreqs.getD sym 0)
                (model.CumFreqs.getD (EOF + 1) 0))
              (narrowHigh low (u64 (sub64 high low + 1)) (model.CumFreqs.getD (sym + 1) 0)
                (model.CumFreqs.getD (EOF + 1) 0)) code rest with
            | none => rw [hd] at h; exact absurd rfl h
            | some q =>
              obtain ⟨low1, high1, code1, rest1⟩ := q
              rw [hd] at h
              rw [decRenorm_append t _ _ _ _ _ _ _ _ hd]
              simp only at h ⊢
              exact ih _ _ _ _ _ _ h

theorem decodeLoop_ne_tooShort :
    ∀ (fuel : Nat) (model : Model) (low high code : Nat) (rest decoded : List Byte),
      decodeLoop fuel model low high code rest decoded ≠ some DecodeResult.tooShort := by
  intro fuel
  induction fuel with
  | zero => intros; simp [decodeLoop]
  | succ fuel ih =>
    intro model low high code rest decoded
    simp only [decodeLoop]
    split
    · simp
    · split
      · simp
      · split
        · simp
        · split
          · simp
          · split
            · simp
            · exact ih _ _ _ _ _ _

theorem decodeLoop_fuel_add (k : Nat) :
    ∀ (fuel : Nat) (model : Model) (low high code : Nat) (rest decoded : List Byte)
      (r : DecodeResult),
      decodeLoop fuel model low high code rest decoded = some r →
      decodeLoop (fuel + k) model low high code rest decoded = some r := by
  intro fuel
  induction fuel with
  | zero => intro _ _ _ _ _ _ r h; simp [decodeLoop] at h
  | succ fuel ih =>
    intro model low high code rest decoded r h
    rw [Nat.add_right_comm]
    simp only [decodeLoop] at h ⊢
    split
    · rename_i hr; rw [if_pos hr] at h; exact h
    · rename_i hr
      rw [if_neg hr] at h
      split
      · rename_i hs; rw [hs] at h; exact h
      · rename_i sym hsym
        rw [hsym] at h
        simp only at h
        split
        · rename_i he; rw [if_pos he] at h; exact h
        · rename_i hne
          rw [if_neg hne] at h
          split
          · rename_i ht; rw [if_pos ht] at h; exact h
          · rename_i ht
            rw [if_neg ht] at h
            split
            · rename_i hd; rw [hd] at h; exact h
            · rename_i low1 high1 code1 rest1 hd
              rw [hd] at h
              exact ih _ _ _ _ _ _ _ h

theorem Decompress_fuel_add (k fuel : Nat) (encoded : List Byte) (r : DecodeResult)
    (h : Decompress fuel encoded = some r) : Decompress (fuel + k) encoded = some r := by
  unfold Decompress at h ⊢
  split
  · rename_i e0 e1 e2 e3 e4 rest
    simp only at h
    exact decodeLoop_fuel_add k _ _ _ _ _ _ _ _ h
  · rename_i hne
    split at h
    · rename_i e0 e1 e2 e3 e4 rest
      exact absurd rfl (hne e0 e1 e2 e3 e4 rest)
    · exact h

theorem Decompress_append (fuel : Nat) (c t : List Byte) (hlen : 5 ≤ c.length)
    (h : Decompress fuel c ≠ some DecodeResult.unexpectedEnd) :
    Decompress fuel (c ++ t) = Decompress fuel c := by
  rcases c with _ | ⟨e0, _ | ⟨e1, _ | ⟨e2, _ | ⟨e3, _ | ⟨e4, rest⟩⟩⟩⟩⟩ <;>
    simp at hlen
  simp only [Decompress, List.cons_append] at h ⊢
  exact decodeLoop_append t _ _ _ _ _ _ _ h

theorem Decompress_tooShort_of_length (fuel : Nat) (c : List Byte) (h : c.length < 5) :
    Decompress fuel c = some DecodeResult.tooShort := by
  rcases c with _ | ⟨e0, _ | ⟨e1, _ | ⟨e2, _ | ⟨e3, _ | ⟨e4, rest⟩⟩⟩⟩⟩ <;>
    first
      | (simp only [List.length_cons] at h; omega)
      | simp [Decompress]

theorem Decompress_ne_tooShort_of_length (fuel : Nat) (c : List Byte) (h : 5 ≤ c.length) :
    Decompress fuel c ≠ some DecodeResult.tooShort := by
  rcases c with _ | ⟨e0, _ | ⟨e1, _ | ⟨e2, _ | ⟨e3, _ | ⟨e4, rest⟩⟩⟩⟩⟩ <;>
    simp at h
  simp only [Decompress]
  exact decodeLoop_ne_tooShort _ _ _ _ _ _ _

/-! ## Bounds on the renormalisation loops -/

theorem encodeSymbol_eq (st : EncState) (sym : Nat) :
    encodeSymbol st sym =
      { model := st.model.update sym
        low := (encRenorm 5 (encNarrow st sym).1 (encNarrow st sym).2 st.output).1
        high := (encRenorm 5 (encNarrow st sym).1 (encNarrow st sym).2 st.output).2.1
        output := (encRenorm 5 (encNarrow st sym).1 (encNarrow st sym).2 st.output).2.2 } :=
  rfl

theorem encRenorm_of_done (low high : Nat) (output : List Byte) (h : renormDone low high) :
    ∀ fuel, encRenorm fuel low high output = (low, high, output) := by
  intro fuel
  cases fuel with
  | zero => rfl
  | succ fuel => rw [encRenorm, if_neg h.1, if_neg h.2]

theorem encRenorm_fuel_add :
    ∀ (fuel k low high : Nat) (output : List Byte),
      renormDone (encRenorm fuel low high output).1 (encRenorm fuel low high output).2.1 →
      encRenorm (fuel + k) low high output = encRenorm fuel low high output := by
  intro fuel
  induction fuel with
  | zero =>
    intro k low high output h
    simp only [encRenorm] at h
    rw [Nat.zero_add, encRenorm_of_done low high output h k]
    rfl
  | succ fuel ih =>
    intro k low high output h
    rw [Nat.add_right_comm]
    rw [encRenorm] at h ⊢
    split
    · rename_i heq
      rw [encRenorm, if_pos heq]
      rw [if_pos heq] at h
      exact ih _ _ _ _ h
    · rename_i hne
      rw [if_neg hne] at h
      split
      · rename_i hu
        rw [encRenorm, if_neg hne, if_pos hu]
        rw [if_pos hu] at h
        exact ih _ _ _ _ h
      · rename_i hu
        rw [encRenorm, if_neg hne, if_neg hu]

theorem encRenorm_output :
    ∀ (fuel low high : Nat) (output : List Byte),
      ∃ emitted : List Byte, emitted.length ≤ fuel ∧
        (encRenorm fuel low high output).2.2 = output ++ emitted := by
  intro fuel
  induction fuel with
  | zero => intro low high output; exact ⟨[], by simp, by simp [encRenorm]⟩
  | succ fuel ih =>
    intro low high output
    rw [encRenorm]
    split
    · obtain ⟨e, he, heq⟩ := ih (shiftLow low) (shiftHigh high) (output ++ [toByte (low >>> 32)])
      exact ⟨toByte (low >>> 32) :: e, by simp; omega, by rw [heq]; simp⟩
    · split
      · obtain ⟨e, he, heq⟩ := ih (collapse low 0x00) (collapse high 0xFF)
          (output ++ [toByte (low >>> 32)])
        exact ⟨toByte (low >>> 32) :: e, by simp; omega, by rw [heq]; simp⟩
      · exact ⟨[], by simp, by simp⟩

theorem encode_output_length :
    ∀ (syms : List Nat) (st : EncState),
      (syms.foldl encodeSymbol st).output.length ≤ st.output.length + 5 * syms.length := by
  intro syms
  induction syms with
  | nil => intro st; simp
  | cons sym rest ih =>
    intro st
    have h1 := ih (encodeSymbol st sym)
    obtain ⟨e, he, heq⟩ := encRenorm_output 5 (encNarrow st sym).1 (encNarrow st sym).2 st.output
    have h2 : (encodeSymbol st sym).output.length ≤ st.output.length + 5 := by
      rw [encodeSymbol_eq]
      simp only
      rw [heq, List.length_append]
      omega
    simp only [List.foldl_cons, List.length_cons]
    omega

theorem finalBytes_length (low : Nat) : (finalBytes low).length = 5 := by
  simp [finalBytes]

theorem decRenorm_bound :
    ∀ (rest : List Byte) (k low high code : Nat), k ≤ 5 →
      (k = 0 ∨ (low < 2 ^ 40 ∧ high < 2 ^ 40)) →
      low % 2 ^ (8 * k) = 0 → high % 2 ^ (8 * k) = 2 ^ (8 * k) - 1 →
      (∀ r, decRenorm low high code rest = some r →
        r.1 >>> 32 ≠ r.2.1 >>> 32 ∧
        ∃ pulled : List Byte, pulled.length + k ≤ 5 ∧ rest = pulled ++ r.2.2.2) ∧
      (5 ≤ rest.length + k → decRenorm low high code rest ≠ none) := by
  intro rest
  induction rest with
  | nil =>
    intro k low high code hk hb hl hh
    simp only [decRenorm]
    constructor
    · intro r hr
      split at hr
      · exact absurd hr (by simp)
      · rename_i hne
        simp only [Option.some.injEq] at hr
        subst hr
        exact ⟨hne, [], by simpa using hk, rfl⟩
    · intro h5
      simp only [List.length_nil, Nat.zero_add] at h5
      have hk5 : k = 5 := by omega
      subst hk5
      rw [if_neg]
      · simp
      · simp only [Nat.shiftRight_eq_div_pow]
        omega
  | cons b rest ih =>
    intro k low high code hk hb hl hh
    simp only [decRenorm]
    by_cases heq : low >>> 32 = high >>> 32
    · rw [if_pos heq]
      have heq2 := heq
      simp only [Nat.shiftRight_eq_div_pow] at heq2
      have hk4 : k ≤ 4 := by
        by_contra hk5
        have hk5 : k = 5 := by omega
        subst hk5
        omega
      have hnext := ih (k + 1) (shiftLow low) (shiftHigh high)
        ((u64 (code <<< 8) ||| b.val) &&& TopValue) (by omega)
        (Or.inr (by
          rw [shiftLow_eq, shiftHigh_eq]
          exact ⟨Nat.mod_lt _ (by decide), Nat.mod_lt _ (by decide)⟩))
        (by rw [shiftLow_eq]; interval_cases k <;> omega)
        (by rw [shiftHigh_eq]; interval_cases k <;> omega)
      constructor
      · intro r hr
        obtain ⟨hne, pulled, hp, hrest⟩ := hnext.1 r hr
        exact ⟨hne, b :: pulled, by simp; omega, by rw [hrest]; simp⟩
      · intro h5
        exact hnext.2 (by simp only [List.length_cons] at h5; omega)
    · rw [if_neg heq]
      constructor
      · intro r hr
        simp only [Option.some.injEq] at hr
        subst hr
        exact ⟨heq, [], by simpa using hk, rfl⟩
      · intro _
        simp

/-! ## The frequency model -/

theorem cumulativeFrom_length : ∀ (fs : List Nat) (acc : Nat),
    (cumulativeFrom fs acc).length = fs.length := by
  intro fs
  induction fs with
  | nil => intro acc; rfl
  | cons f fs ih => intro acc; simp [cumulativeFrom, ih]

theorem cumulativeFrom_getD : ∀ (fs : List Nat) (acc i : Nat), i < fs.length →
    acc + fs.sum < 2 ^ 64 →
    (cumulativeFrom fs acc).getD i 0 = acc + (fs.take (i + 1)).sum := by
  intro fs
  induction fs with
  | nil => intro acc i hi; simp at hi
  | cons f fs ih =>
    intro acc i hi hsum
    simp only [List.sum_cons] at hsum
    have hu : u64 (acc + f) = acc + f := Nat.mod_eq_of_lt (by omega)
    simp only [cumulativeFrom, hu]
    cases i with
    | zero => simp
    | succ i =>
      simp only [List.length_cons] at hi
      rw [List.getD_cons_succ, ih (acc + f) i (by omega) (by omega)]
      simp only [List.take_succ_cons, List.sum_cons]
      omega

theorem sum_take_succ_getD (l : List Nat) (i : Nat) (hi : i < l.length) :
    (l.take (i + 1)).sum = (l.take i).sum + l.getD i 0 := by
  rw [List.sum_take_succ l i hi, List.getD_eq_getElem l 0 hi]

theorem sum_take_set : ∀ (l : List Nat) (i n v : Nat), i < n → i < l.length →
    ((l.set i v).take n).sum + l.getD i 0 = (l.take n).sum + v := by
  intro l
  induction l with
  | nil => intro i n v _ hi; simp at hi
  | cons x l ih =>
    intro i n v hin hi
    obtain ⟨n, rfl⟩ : ∃ n', n = n' + 1 := ⟨n - 1, by omega⟩
    cases i with
    | zero =>
      simp only [List.set_cons_zero, List.take_succ_cons, List.sum_cons, List.getD_cons_zero]
      omega
    | succ i =>
      simp only [List.length_cons] at hi
      simp only [List.set_cons_succ, List.take_succ_cons, List.sum_cons, List.getD_cons_succ]
      have := ih i n v (by omega) (by omega)
      omega

theorem getD_set_eq (l : List Nat) (i j v : Nat) (hi : i < l.length) :
    (l.set i v).getD j 0 = if i = j then v else l.getD j 0 := by
  rw [List.getD_eq_getElem?_getD, List.getElem?_set, List.getD_eq_getElem?_getD]
  by_cases hij : i = j
  · subst hij
    rw [if_pos rfl, if_pos rfl, if_pos hi]
    rfl
  · rw [if_neg hij, if_neg hij]

theorem updateCumulative_getD (m : Model) (hlen : m.Freq.length = TotalSymbolFreq + 1)
    (hsum : (m.Freq.take TotalSymbolFreq).sum < 2 ^ 64) :
    ∀ j, j ≤ TotalSymbolFreq → (m.updateCumulative).CumFreqs.getD j 0 = (m.Freq.take j).sum := by
  intro j hj
  simp only [TotalSymbolFreq] at hlen hsum hj
  simp only [Model.updateCumulative, EOF, Nat.reduceAdd]
  cases j with
  | zero => simp
  | succ i =>
    have hl : (cumulativeFrom (m.Freq.take 257) 0).length = 257 := by
      rw [cumulativeFrom_length, List.length_take]; omega
    rw [List.cons_append, List.getD_cons_succ, List.getD_append _ _ _ _ (by omega),
      cumulativeFrom_getD _ 0 i (by rw [List.length_take]; omega) (by omega), List.take_take,
      Nat.zero_add]
    congr 2
    omega

theorem updateCumulative_inv (m : Model) (hlen : m.Freq.length = TotalSymbolFreq + 1)
    (hclen : m.CumFreqs.length = TotalSymbolFreq + 2)
    (hsum : (m.Freq.take TotalSymbolFreq).sum < 2 ^ 64) :
    ModelInv m.updateCumulative := by
  have hget := updateCumulative_getD m hlen hsum
  refine ⟨hlen, ?_, ?_, ?_⟩
  · simp only [TotalSymbolFreq] at hlen hclen ⊢
    simp only [Model.updateCumulative, EOF, Nat.reduceAdd, List.length_cons, List.length_append,
      cumulativeFrom_length, List.length_take, List.length_drop]
    omega
  · rw [hget 0 (by decide)]
    simp
  · intro s hs
    rw [hget (s + 1) (by omega), hget s (by omega)]
    have : (m.updateCumulative).Freq = m.Freq := rfl
    rw [this]
    exact sum_take_succ_getD m.Freq s (by simp only [TotalSymbolFreq] at hs hlen; omega)

theorem ModelInv_cum_eq_sum (m : Model) (h : ModelInv m) :
    ∀ j, j ≤ TotalSymbolFreq → m.CumFreqs.getD j 0 = (m.Freq.take j).sum := by
  obtain ⟨hlen, _, h0, hstep⟩ := h
  intro j
  induction j with
  | zero => intro _; rw [h0]; rfl
  | succ j ih =>
    intro hj
    rw [hstep j (by omega), ih (by omega),
      sum_take_succ_getD m.Freq j (by simp only [TotalSymbolFreq] at hj hlen; omega)]

theorem ModelInv_monotone (m : Model) (h : ModelInv m) : CumMonotone m := by
  intro i hi
  rw [h.2.2.2 i hi]
  omega

theorem ModelInv_cum_le (m : Model) (h : ModelInv m) :
    ∀ j i, i ≤ j → j ≤ TotalSymbolFreq → m.CumFreqs.getD i 0 ≤ m.CumFreqs.getD j 0 := by
  intro j
  induction j with
  | zero =>
    intro i hi _
    have : i = 0 := by omega
    subst this
    exact Nat.le_refl _
  | succ j ih =>
    intro i hi hj
    by_cases hij : i = j + 1
    · subst hij; exact Nat.le_refl _
    · have h1 := ih i (by omega) (by omega)
      have h2 := ModelInv_monotone m h j (by omega)
      omega

theorem ModelInv_cum_le_total (m : Model) (h : ModelInv m) (i : Nat)
    (hi : i ≤ TotalSymbolFreq) : m.CumFreqs.getD i 0 ≤ m.total :=
  ModelInv_cum_le m h TotalSymbolFreq i hi (Nat.le_refl _)

theorem ModelInv_update (m : Model) (sym : Nat) (h : ModelInv m) (hsym : sym ≤ EOF)
    (htot : m.total < 2 ^ 64 - 1) :
    ModelInv (m.update sym) ∧ (m.update sym).total = m.total + 1 ∧
    (∀ s, (m.update sym).Freq.getD s 0 =
      if sym = s then m.Freq.getD s 0 + 1 else m.Freq.getD s 0) := by
  have hlen := h.1
  have hclen := h.2.1
  have htotal : m.total = (m.Freq.take TotalSymbolFreq).sum :=
    ModelInv_cum_eq_sum m h TotalSymbolFreq (Nat.le_refl _)
  simp only [EOF] at hsym
  have hsymlt : sym < m.Freq.length := by simp only [TotalSymbolFreq] at hlen; omega
  have hle : m.Freq.getD sym 0 ≤ m.total := by
    have := sum_take_set m.Freq sym TotalSymbolFreq 0 (by simp only [TotalSymbolFreq]; omega)
      hsymlt
    omega
  have hu : u64 (m.Freq.getD sym 0 + 1) = m.Freq.getD sym 0 + 1 :=
    Nat.mod_eq_of_lt (by omega)
  have hsum : ((m.Freq.set sym (m.Freq.getD sym 0 + 1)).take TotalSymbolFreq).sum =
      m.total + 1 := by
    have := sum_take_set m.Freq sym TotalSymbolFreq (m.Freq.getD sym 0 + 1)
      (by simp only [TotalSymbolFreq]; omega) hsymlt
    omega
  have hupd : m.update sym =
      Model.updateCumulative { m with Freq := m.Freq.set sym (m.Freq.getD sym 0 + 1) } := by
    simp only [Model.update, hu]
  have hinv := updateCumulative_inv { m with Freq := m.Freq.set sym (m.Freq.getD sym 0 + 1) }
    (by simp only [List.length_set]; exact hlen) hclen (by simp only [hsum]; omega)
  refine ⟨by rw [hupd]; exact hinv, ?_, ?_⟩
  · rw [hupd, Model.total]
    have := updateCumulative_getD { m with Freq := m.Freq.set sym (m.Freq.getD sym 0 + 1) }
      (by simp only [List.length_set]; exact hlen) (by simp only [hsum]; omega)
      TotalSymbolFreq (Nat.le_refl _)
    simp only [EOF, TotalSymbolFreq] at this ⊢
    rw [this]
    simp only [TotalSymbolFreq] at hsum
    exact hsum
  · intro s
    rw [hupd]
    show (m.Freq.set sym (m.Freq.getD sym 0 + 1)).getD s 0 = _
    rw [getD_set_eq _ _ _ _ hsymlt]
    by_cases hs : sym = s
    · simp [hs]
    · simp [hs]

theorem ModelPos_update (m : Model) (sym : Nat) (h : ModelInv m) (hp : ModelPos m)
    (hsym : sym ≤ EOF) (htot : m.total < 2 ^ 64 - 1) : ModelPos (m.update sym) := by
  intro s hs
  rw [(ModelInv_update m sym h hsym htot).2.2 s]
  have := hp s hs
  split <;> omega

theorem NewInitialModel_facts :
    ModelInv NewInitialModel ∧ ModelPos NewInitialModel ∧ NewInitialModel.total = 257 := by
  decide!


theorem cumulativeFrom_getD_zero (fs : List Nat) (acc : Nat) (h : 0 < fs.length) :
    (cumulativeFrom fs acc).getD 0 0 = u64 (acc + fs.getD 0 0) := by
  cases fs with
  | nil => simp at h
  | cons f fs => rfl

theorem cumulativeFrom_getD_succ : ∀ (fs : List Nat) (acc i : Nat), i + 1 < fs.length →
    (cumulativeFrom fs acc).getD (i + 1) 0 =
      u64 ((cumulativeFrom fs acc).getD i 0 + fs.getD (i + 1) 0) := by
  intro fs
  induction fs with
  | nil => intro acc i hi; simp at hi
  | cons f fs ih =>
    intro acc i hi
    simp only [List.length_cons] at hi
    simp only [cumulativeFrom, List.getD_cons_succ]
    cases i with
    | zero => rw [List.getD_cons_zero, cumulativeFrom_getD_zero fs _ (by omega)]
    | succ i =>
      rw [List.getD_cons_succ]
      exact ih _ i (by omega)

theorem getD_take_of_lt (l : List Nat) (n s : Nat) (hs : s < n) :
    (l.take n).getD s 0 = l.getD s 0 := by
  rw [List.getD_eq_getElem?_getD, List.getD_eq_getElem?_getD, List.getElem?_take_of_lt hs]

theorem updateCumulative_step64 (m : Model) (hlen : m.Freq.length = TotalSymbolFreq + 1) :
    (m.updateCumulative).CumFreqs.getD 0 0 = 0 ∧
    ∀ s, s < TotalSymbolFreq →
      (m.updateCumulative).CumFreqs.getD (s + 1) 0 =
        u64 ((m.updateCumulative).CumFreqs.getD s 0 + m.Freq.getD s 0) := by
  simp only [TotalSymbolFreq] at hlen ⊢
  have htl : (m.Freq.take 257).length = 257 := by rw [List.length_take]; omega
  have hl : (cumulativeFrom (m.Freq.take 257) 0).length = 257 := by
    rw [cumulativeFrom_length, htl]
  constructor
  · simp [Model.updateCumulative]
  · intro s hs
    simp only [Model.updateCumulative, EOF, Nat.reduceAdd]
    rw [List.cons_append, List.getD_cons_succ, List.getD_append _ _ _ _ (by omega)]
    cases s with
    | zero =>
      rw [List.getD_cons_zero, cumulativeFrom_getD_zero _ _ (by omega),
        getD_take_of_lt _ _ _ hs]
    | succ s =>
      rw [List.getD_cons_succ, List.getD_append _ _ _ _ (by omega),
        cumulativeFrom_getD_succ _ _ s (by omega), getD_take_of_lt _ _ _ hs]

theorem ModelInv64_update (m : Model) (sym : Nat) (h : ModelInv64 m) (hsym : sym ≤ EOF) :
    ModelInv64 (m.update sym) := by
  obtain ⟨hlen, hclen, hf, _, _, _⟩ := h
  simp only [EOF] at hsym
  have hsymlt : sym < m.Freq.length := by simp only [TotalSymbolFreq] at hlen; omega
  have hlen1 : (m.update sym).Freq.length = TotalSymbolFreq + 1 := by
    simp only [Model.update, Model.updateCumulative, List.length_set]
    exact hlen
  have hfr : (m.update sym).Freq = m.Freq.set sym (u64 (m.Freq.getD sym 0 + 1)) := rfl
  have hstep := updateCumulative_step64
    { m with Freq := m.Freq.set sym (u64 (m.Freq.getD sym 0 + 1)) }
    (by simp only [List.length_set]; exact hlen)
  have hf1 : ∀ s, s < TotalSymbolFreq → (m.update sym).Freq.getD s 0 < 2 ^ 64 := by
    intro s hs
    rw [hfr, getD_set_eq _ _ _ _ hsymlt]
    split
    · exact Nat.mod_lt _ (by norm_num)
    · exact hf s hs
  have hc : ∀ i, i ≤ TotalSymbolFreq → (m.update sym).CumFreqs.getD i 0 < 2 ^ 64 := by
    intro i hi
    cases i with
    | zero =>
      have h0 : (m.update sym).CumFreqs.getD 0 0 = 0 := hstep.1
      rw [h0]
      norm_num
    | succ i =>
      have h1 : (m.update sym).CumFreqs.getD (i + 1) 0 = _ := hstep.2 i (by omega)
      rw [h1]
      exact Nat.mod_lt _ (by norm_num)
  refine ⟨hlen1, ?_, hf1, hc, hstep.1, ?_⟩
  · simp only [TotalSymbolFreq] at hlen hclen ⊢
    simp only [Model.update, Model.updateCumulative, EOF, Nat.reduceAdd, List.length_cons,
      List.length_append, cumulativeFrom_length, List.length_take, List.length_drop,
      List.length_set]
    omega
  · intro s hs
    have h1 : (m.update sym).CumFreqs.getD (s + 1) 0 =
        u64 ((m.update sym).CumFreqs.getD s 0 + (m.update sym).Freq.getD s 0) := hstep.2 s hs
    have h2 := hc s (by omega)
    have h3 := hf1 s hs
    rw [h1]
    simp only [sub64, u64]
    omega
/-! ## Exact arithmetic of the narrowing and the symbol search -/

theorem rangeSize_exact (low high : Nat) (hlh : low ≤ high) (hh : high < 2 ^ 40) :
    u64 (sub64 high low + 1) = high - low + 1 := by
  simp only [u64, sub64]
  omega

theorem mul_lt_two_pow_64 (r a : Nat) (hr : r ≤ 2 ^ 40) (ha : a < 2 ^ 24) : r * a < 2 ^ 64 := by
  calc r * a ≤ 2 ^ 40 * a := Nat.mul_le_mul_right a hr
    _ < 2 ^ 40 * 2 ^ 24 := Nat.mul_lt_mul_of_pos_left ha (by decide)
    _ = 2 ^ 64 := by norm_num

theorem mul_div_le_of_le (r a T : Nat) (ha : a ≤ T) : r * a / T ≤ r := by
  by_cases hT : T = 0
  · subst hT; simp
  · calc r * a / T ≤ r * T / T := Nat.div_le_div_right (Nat.mul_le_mul_left r ha)
      _ = r := Nat.mul_div_cancel r (by omega)

theorem narrowLow_exact (low high a T : Nat) (hlh : low ≤ high) (hh : high < 2 ^ 40)
    (hT : T < 2 ^ 24) (ha : a ≤ T) :
    narrowLow low (high - low + 1) a T = low + (high - low + 1) * a / T := by
  have hmul := mul_lt_two_pow_64 (high - low + 1) a (by omega) (by omega)
  have hdiv := mul_div_le_of_le (high - low + 1) a T ha
  simp only [narrowLow, u64]
  rw [Nat.mod_eq_of_lt hmul, Nat.mod_eq_of_lt (by omega)]

theorem narrowHigh_exact (low high b T : Nat) (hlh : low ≤ high) (hh : high < 2 ^ 40)
    (hT : T < 2 ^ 24) (hb : b ≤ T) (hpos : 1 ≤ low + (high - low + 1) * b / T) :
    narrowHigh low (high - low + 1) b T + 1 = low + (high - low + 1) * b / T := by
  have hmul := mul_lt_two_pow_64 (high - low + 1) b (by omega) (by omega)
  have hdiv := mul_div_le_of_le (high - low + 1) b T hb
  simp only [narrowHigh, u64, sub64]
  rw [Nat.mod_eq_of_lt hmul, Nat.mod_eq_of_lt (a := low + (high - low + 1) * b / T) (by omega)]
  omega

theorem decodeValue_exact (low high code T : Nat) (hlc : low ≤ code) (hch : code ≤ high)
    (hh : high < 2 ^ 40) (hT : T < 2 ^ 24) (hT1 : 1 ≤ T) :
    decodeValue low high code T = ((code - low + 1) * T - 1) / (high - low + 1) := by
  have hmul := mul_lt_two_pow_64 (code - low + 1) T (by omega) hT
  have hr := rangeSize_exact low high (by omega) hh
  have hk : u64 (sub64 code low + 1) = code - low + 1 := by
    simp only [u64, sub64]
    omega
  have hpos : 1 ≤ (code - low + 1) * T := Nat.mul_pos (by omega) hT1
  have hnum : sub64 (u64 ((code - low + 1) * T)) 1 = (code - low + 1) * T - 1 := by
    simp only [u64, sub64]
    rw [Nat.mod_eq_of_lt hmul]
    omega
  simp only [decodeValue, hr, hk, hnum]

theorem decodeValue_bounds (low high code T a b : Nat) (hlh : low ≤ high) (hh : high < 2 ^ 40)
    (hT : T < 2 ^ 24) (hb : b ≤ T)
    (hlo : low + (high - low + 1) * a / T ≤ code)
    (hhi : code + 1 ≤ low + (high - low + 1) * b / T) :
    a ≤ decodeValue low high code T ∧ decodeValue low high code T < b := by
  have hT1 : 1 ≤ T := by
    by_contra h0
    have h0 : T = 0 := by omega
    subst h0
    simp only [Nat.div_zero] at hhi hlo
    omega
  have hdivb := mul_div_le_of_le (high - low + 1) b T hb
  have hlc : low ≤ code := Nat.le_trans (Nat.le_add_right _ _) hlo
  have hch : code ≤ high := by
    generalize (high - low + 1) * b / T = B at *
    omega
  rw [decodeValue_exact low high code T hlc hch hh hT hT1]
  have hrpos : 0 < high - low + 1 := by omega
  have hk1 : (high - low + 1) * a / T < code - low + 1 := by
    generalize (high - low + 1) * a / T = A at *
    omega
  have hk2 : code - low + 1 ≤ (high - low + 1) * b / T := by
    generalize (high - low + 1) * b / T = B at *
    omega
  have h1 : (high - low + 1) * a < (code - low + 1) * T :=
    (Nat.div_lt_iff_lt_mul (by omega)).1 hk1
  have h2 : (code - low + 1) * T ≤ (high - low + 1) * b :=
    (Nat.le_div_iff_mul_le (by omega)).1 hk2
  constructor
  · rw [Nat.le_div_iff_mul_le hrpos, Nat.mul_comm]
    omega
  · rw [Nat.div_lt_iff_lt_mul hrpos, Nat.mul_comm b]
    have hpos : 1 ≤ (code - low + 1) * T := Nat.mul_pos (by omega) hT1
    omega

theorem findSymbol_eq (cum : List Nat) (value s : Nat)
    (hs : cum.getD s 0 ≤ value ∧ value < cum.getD (s + 1) 0) :
    ∀ (n i : Nat), i ≤ s → s < i + n →
      (∀ j, i ≤ j → j < s → ¬ (cum.getD j 0 ≤ value ∧ value < cum.getD (j + 1) 0)) →
      findSymbol cum value n i = some s := by
  intro n
  induction n with
  | zero => intro i h1 h2; omega
  | succ n ih =>
    intro i h1 h2 hbefore
    rw [findSymbol]
    by_cases his : i = s
    · subst his
      rw [if_pos hs]
    · rw [if_neg (hbefore i (Nat.le_refl i) (by omega))]
      exact ih (i + 1) (by omega) (by omega) (fun j hj1 hj2 => hbefore j (by omega) hj2)

theorem findSymbol_of_inv (m : Model) (h : ModelInv m) (value s : Nat) (hs : s ≤ EOF)
    (hv : m.CumFreqs.getD s 0 ≤ value ∧ value < m.CumFreqs.getD (s + 1) 0) :
    findSymbol m.CumFreqs value (EOF + 1) 0 = some s := by
  simp only [EOF] at hs
  apply findSymbol_eq m.CumFreqs value s hv (EOF + 1) 0 (Nat.zero_le _)
    (by simp only [EOF]; omega)
  intro j _ hj hc
  have := ModelInv_cum_le m h s (j + 1) (by omega) (by simp only [TotalSymbolFreq]; omega)
  omega

/-! ## The invariant of the state of `Compress` -/

theorem shift_interval (low high : Nat) (hlh : low ≤ high)
    (heq : low / 2 ^ 32 = high / 2 ^ 32) :
    shiftLow low ≤ shiftHigh high ∧ shiftHigh high < 2 ^ 40 := by
  rw [shiftLow_eq, shiftHigh_eq]
  omega

theorem collapse_interval (low high : Nat) (hlh : low ≤ high) (hh : high < 2 ^ 40)
    (hu : underflowCond low high) :
    collapse low 0x00 ≤ collapse high 0xFF ∧ collapse high 0xFF < 2 ^ 40 := by
  rw [underflowCond_iff] at hu
  rw [collapse_eq _ _ (by decide), collapse_eq _ _ (by decide)]
  omega

theorem encRenorm_interval :
    ∀ (fuel low high : Nat) (output : List Byte), low ≤ high → high < 2 ^ 40 →
      (encRenorm fuel low high output).1 ≤ (encRenorm fuel low high output).2.1 ∧
      (encRenorm fuel low high output).2.1 < 2 ^ 40 := by
  intro fuel
  induction fuel with
  | zero => intro low high output hlh hh; exact ⟨hlh, hh⟩
  | succ fuel ih =>
    intro low high output hlh hh
    rw [encRenorm]
    split
    · rename_i heq
      simp only [Nat.shiftRight_eq_div_pow] at heq
      have := shift_interval low high hlh heq
      exact ih _ _ _ this.1 this.2
    · split
      · rename_i hu
        have := collapse_interval low high hlh hh hu
        exact ih _ _ _ this.1 this.2
      · exact ⟨hlh, hh⟩

theorem renormDone_range (low high : Nat) (hd : renormDone low high) (hlh : low ≤ high) :
    2 ^ 24 ≤ high - low := by
  rw [renormDone_iff] at hd
  omega

theorem div_succ_le (r a f T : Nat) (hT : 1 ≤ T) (hf : 1 ≤ f) (hr : T ≤ r) :
    r * a / T + 1 ≤ r * (a + f) / T := by
  have h1 : r * a + T ≤ r * (a + f) := by
    rw [Nat.mul_add]
    have : T * 1 ≤ r * f := Nat.mul_le_mul hr hf
    omega
  calc r * a / T + 1 = (r * a + T) / T := (Nat.add_div_right _ (by omega)).symm
    _ ≤ r * (a + f) / T := Nat.div_le_div_right h1

theorem encNarrow_facts (st : EncState) (k sym : Nat) (h : EncInv st k)
    (hk : 257 + k < 2 ^ 24) (hsym : sym ≤ EOF) :
    u64 (sub64 st.high st.low + 1) = st.high - st.low + 1 ∧
    (st.high - st.low + 1) * st.model.CumFreqs.getD sym 0 < 2 ^ 64 ∧
    (st.high - st.low + 1) * st.model.CumFreqs.getD (sym + 1) 0 < 2 ^ 64 ∧
    (encNarrow st sym).1 =
      st.low + (st.high - st.low + 1) * st.model.CumFreqs.getD sym 0 / st.model.total ∧
    (encNarrow st sym).2 + 1 =
      st.low + (st.high - st.low + 1) * st.model.CumFreqs.getD (sym + 1) 0 / st.model.total ∧
    st.low ≤ (encNarrow st sym).1 ∧ (encNarrow st sym).1 ≤ (encNarrow st sym).2 ∧
    (encNarrow st sym).2 ≤ st.high := by
  obtain ⟨hinv, hpos, htot, hlh, hh, hrange⟩ := h
  simp only [EOF] at hsym
  have hT : st.model.total < 2 ^ 24 := by omega
  have ha := ModelInv_cum_le_total st.model hinv sym (by simp only [TotalSymbolFreq]; omega)
  have hb := ModelInv_cum_le_total st.model hinv (sym + 1)
    (by simp only [TotalSymbolFreq]; omega)
  have hstep := hinv.2.2.2 sym (by simp only [TotalSymbolFreq]; omega)
  have hf := hpos sym (by simp only [TotalSymbolFreq]; omega)
  have hr := rangeSize_exact st.low st.high hlh hh
  have hdivb := mul_div_le_of_le (st.high - st.low + 1) _ _ hb
  have hsucc := div_succ_le (st.high - st.low + 1) (st.model.CumFreqs.getD sym 0)
    (st.model.Freq.getD sym 0) st.model.total (by omega) hf (by omega)
  rw [← hstep] at hsucc
  have hnl := narrowLow_exact st.low st.high _ _ hlh hh hT ha
  have hnh := narrowHigh_exact st.low st.high _ _ hlh hh hT hb
    (Nat.le_trans (Nat.le_trans (Nat.le_add_left 1 _) hsucc) (Nat.le_add_left _ _))
  have e1 : (encNarrow st sym).1 =
      narrowLow st.low (st.high - st.low + 1) (st.model.CumFreqs.getD sym 0)
        st.model.total := by
    simp only [encNarrow, hr, Model.total]
  have e2 : (encNarrow st sym).2 =
      narrowHigh st.low (st.high - st.low + 1) (st.model.CumFreqs.getD (sym + 1) 0)
        st.model.total := by
    simp only [encNarrow, hr, Model.total]
  have hA : (encNarrow st sym).1 = st.low +
      (st.high - st.low + 1) * st.model.CumFreqs.getD sym 0 / st.model.total := by
    rw [e1, hnl]
  have hB : (encNarrow st sym).2 + 1 = st.low +
      (st.high - st.low + 1) * st.model.CumFreqs.getD (sym + 1) 0 / st.model.total := by
    rw [e2, hnh]
  refine ⟨hr, mul_lt_two_pow_64 _ _ (by omega) (by omega),
    mul_lt_two_pow_64 _ _ (by omega) (by omega), hA, hB, ?_, ?_, ?_⟩
  · rw [hA]; exact Nat.le_add_right _ _
  · generalize (st.high - st.low + 1) * st.model.CumFreqs.getD sym 0 / st.model.total = A at *
    generalize (st.high - st.low + 1) * st.model.CumFreqs.getD (sym + 1) 0 /
      st.model.total = B at *
    omega
  · generalize (st.high - st.low + 1) * st.model.CumFreqs.getD (sym + 1) 0 /
      st.model.total = B at *
    omega

theorem EncInv_init : EncInv encInit 0 := by
  refine ⟨NewInitialModel_facts.1, NewInitialModel_facts.2.1, NewInitialModel_facts.2.2, ?_, ?_,
    ?_⟩ <;> decide

theorem EncInv_step (st : EncState) (k sym : Nat) (h : EncInv st k)
    (hk : 257 + k < 2 ^ 24) (hsym : sym ≤ EOF) : EncInv (encodeSymbol st sym) (k + 1) := by
  have hn := encNarrow_facts st k sym h hk hsym
  obtain ⟨hinv, hpos, htot, hlh, hh, hrange⟩ := h
  have hu := ModelInv_update st.model sym hinv hsym (by omega)
  have hint := encRenorm_interval 5 (encNarrow st sym).1 (encNarrow st sym).2 st.output
    hn.2.2.2.2.2.2.1 (by omega)
  have hdone := encRenorm_done (encNarrow st sym).1 (encNarrow st sym).2 st.output
  rw [encodeSymbol_eq]
  refine ⟨hu.1, ModelPos_update st.model sym hinv hpos hsym (by omega), ?_, hint.1, hint.2,
    renormDone_range _ _ hdone hint.1⟩
  show (st.model.update sym).total = 257 + (k + 1)
  rw [hu.2.1, htot]
  omega

theorem EncInv_foldl :
    ∀ (syms : List Nat) (st : EncState) (k : Nat), EncInv st k → (∀ s ∈ syms, s ≤ EOF) →
      257 + k + syms.length ≤ 2 ^ 24 → EncInv (syms.foldl encodeSymbol st) (k + syms.length) := by
  intro syms
  induction syms with
  | nil => intro st k h _ _; exact h
  | cons sym rest ih =>
    intro st k h hs hlen
    simp only [List.length_cons] at hlen
    have h1 := EncInv_step st k sym h (by omega) (hs sym (List.mem_cons_self _ _))
    have h2 := ih (encodeSymbol st sym) (k + 1) h1
      (fun s hmem => hs s (List.mem_cons_of_mem _ hmem)) (by omega)
    simp only [List.foldl_cons, List.length_cons]
    rw [show k + (rest.length + 1) = k + 1 + rest.length by omega]
    exact h2

theorem intData_le (d : List Byte) : ∀ s ∈ intData d, s ≤ EOF := by
  intro s hs
  simp only [intData, List.mem_append, List.mem_map, List.mem_singleton] at hs
  rcases hs with ⟨b, _, rfl⟩ | rfl
  · have := b.isLt
    simp only [EOF]
    omega
  · exact Nat.le_refl _

theorem intData_length (d : List Byte) : (intData d).length = d.length + 1 := by
  simp [intData]

theorem EncInv_prefix (d : List Byte) (j : Nat) (hd : d.length < 2 ^ 24 - 257)
    (hj : j ≤ (intData d).length) :
    EncInv (encStateAt d j) j := by
  unfold encStateAt
  have hlen := intData_length d
  have h := EncInv_foldl ((intData d).take j) encInit 0 EncInv_init
    (fun s hs => intData_le d s (List.mem_of_mem_take hs))
    (by rw [List.length_take]; omega)
  rw [List.length_take, Nat.zero_add, Nat.min_eq_left hj] at h
  exact h

theorem foldl_encodeSymbol_model :
    ∀ (syms : List Nat) (st : EncState),
      (syms.foldl encodeSymbol st).model = syms.foldl Model.update st.model := by
  intro syms
  induction syms with
  | nil => intro st; rfl
  | cons sym rest ih => intro st; simp only [List.foldl_cons]; rw [ih]; rfl

theorem foldl_update_total :
    ∀ (syms : List Nat) (m : Model), ModelInv m → (∀ s ∈ syms, s ≤ EOF) →
      m.total + syms.length < 2 ^ 64 →
      ModelInv (syms.foldl Model.update m) ∧
      (syms.foldl Model.update m).total = m.total + syms.length := by
  intro syms
  induction syms with
  | nil => intro m h _ _; exact ⟨h, rfl⟩
  | cons sym rest ih =>
    intro m h hs hlen
    simp only [List.length_cons] at hlen
    have hu := ModelInv_update m sym h (hs sym (List.mem_cons_self _ _)) (by omega)
    have h2 := ih (m.update sym) hu.1 (fun s hmem => hs s (List.mem_cons_of_mem _ hmem))
      (by rw [hu.2.1]; omega)
    simp only [List.foldl_cons, List.length_cons]
    refine ⟨h2.1, ?_⟩
    rw [h2.2, hu.2.1]
    omega

/-! ## The final bytes of `Compress` -/

theorem finalize_zero (savedLow low : Nat) (output : List Byte) :
    finalize 0 savedLow low output = output ++ finalBytes low := by
  simp [finalize, finalBytes]

theorem window_finalBytes (low : Nat) : window (finalBytes low) = low % 2 ^ 40 := by
  have hr : List.range 5 = [0, 1, 2, 3, 4] := by decide
  simp only [finalBytes, hr, List.map, window, List.take, List.foldl, toByte, and_255,
    Nat.shiftRight_eq_div_pow]
  omega

theorem symAt_le (d : List Byte) (j : Nat) : symAt d j ≤ EOF := by
  unfold symAt
  by_cases hj : j < (intData d).length
  · rw [List.getD_eq_getElem _ _ hj]
    exact intData_le d _ (List.getElem_mem _)
  · rw [List.getD_eq_default _ _ (by omega)]
    exact Nat.zero_le _

theorem encStateAt_succ (d : List Byte) (j : Nat) (hj : j < (intData d).length) :
    encStateAt d (j + 1) = encodeSymbol (encStateAt d j) (symAt d j) := by
  unfold encStateAt symAt
  rw [List.take_succ, List.foldl_append, List.getD_eq_getElem _ _ hj,
    List.getElem?_eq_getElem hj]
  rfl

theorem encStateAt_full (d : List Byte) :
    encStateAt d (d.length + 1) = (intData d).foldl encodeSymbol encInit := by
  unfold encStateAt
  rw [List.take_of_length_le (by rw [intData_length])]

/-! ## The window of the decoder -/

theorem exists_five (bytes : List Byte) (h : 5 ≤ bytes.length) :
    ∃ (z0 z1 z2 z3 z4 : Byte) (tail : List Byte), bytes = z0 :: z1 :: z2 :: z3 :: z4 :: tail := by
  rcases bytes with _ | ⟨z0, _ | ⟨z1, _ | ⟨z2, _ | ⟨z3, _ | ⟨z4, tail⟩⟩⟩⟩⟩ <;>
    first
      | (simp only [List.length_cons, List.length_nil] at h; omega)
      | exact ⟨z0, z1, z2, z3, z4, tail, rfl⟩

theorem window_five (z0 z1 z2 z3 z4 : Byte) (tail : List Byte) :
    window (z0 :: z1 :: z2 :: z3 :: z4 :: tail) =
      (((z0.val * 256 + z1.val) * 256 + z2.val) * 256 + z3.val) * 256 + z4.val := by
  simp [window]

theorem window_lt (bytes : List Byte) (h : 5 ≤ bytes.length) : window bytes < 2 ^ 40 := by
  obtain ⟨z0, z1, z2, z3, z4, tail, rfl⟩ := exists_five bytes h
  rw [window_five]
  have := z0.isLt
  have := z1.isLt
  have := z2.isLt
  have := z3.isLt
  have := z4.isLt
  omega

theorem or_bytes_eq (e0 e1 e2 e3 e4 : Nat) (h1 : e1 < 256) (h2 : e2 < 256) (h3 : e3 < 256)
    (h4 : e4 < 256) :
    (e0 <<< 32) ||| (e1 <<< 24) ||| (e2 <<< 16) ||| (e3 <<< 8) ||| e4 =
      (((e0 * 256 + e1) * 256 + e2) * 256 + e3) * 256 + e4 := by
  simp only [Nat.shiftLeft_eq]
  have s1 : e0 * 2 ^ 32 ||| e1 * 2 ^ 24 = 2 ^ 24 * (e0 * 256 + e1) := by
    rw [show e0 * 2 ^ 32 = 2 ^ 32 * e0 by ring, ← Nat.mul_add_lt_is_or (by omega)]
    ring
  have s2 : 2 ^ 24 * (e0 * 256 + e1) ||| e2 * 2 ^ 16 =
      2 ^ 16 * ((e0 * 256 + e1) * 256 + e2) := by
    rw [← Nat.mul_add_lt_is_or (by omega)]
    ring
  have s3 : 2 ^ 16 * ((e0 * 256 + e1) * 256 + e2) ||| e3 * 2 ^ 8 =
      2 ^ 8 * (((e0 * 256 + e1) * 256 + e2) * 256 + e3) := by
    rw [← Nat.mul_add_lt_is_or (by omega)]
    ring
  rw [s1, s2, s3, ← Nat.mul_add_lt_is_or (by omega)]
  ring

theorem Decompress_eq_decodeLoop (fuel : Nat) (c : List Byte) (h : 5 ≤ c.length) :
    Decompress fuel c = decodeLoop fuel NewInitialModel 0 TopValue (window c) (c.drop 5) [] := by
  obtain ⟨z0, z1, z2, z3, z4, tail, rfl⟩ := exists_five c h
  simp only [Decompress, List.drop_succ_cons, List.drop_zero]
  rw [or_bytes_eq _ _ _ _ _ z1.isLt z2.isLt z3.isLt z4.isLt, window_five]

theorem window_shift (z0 z1 z2 z3 z4 z5 : Byte) (tail : List Byte) :
    (u64 (window (z0 :: z1 :: z2 :: z3 :: z4 :: z5 :: tail) <<< 8) ||| z5.val) &&& TopValue =
      window (z1 :: z2 :: z3 :: z4 :: z5 :: tail) := by
  rw [window_five, window_five, TopValue_eq, Nat.and_pow_two_sub_one_eq_mod, u64,
    Nat.shiftLeft_eq]
  have := z0.isLt
  have := z1.isLt
  have := z2.isLt
  have := z3.isLt
  have := z4.isLt
  have h5 : z5.val < 2 ^ 8 := z5.isLt
  have h1 : ((((z0.val * 256 + z1.val) * 256 + z2.val) * 256 + z3.val) * 256 + z4.val) * 2 ^ 8
      % 2 ^ 64 =
      2 ^ 8 * ((((z0.val * 256 + z1.val) * 256 + z2.val) * 256 + z3.val) * 256 + z4.val) := by
    omega
  rw [h1, ← Nat.mul_add_lt_is_or h5]
  omega

theorem window_cons (t z0 z1 z2 z3 z4 : Byte) (tail : List Byte) :
    window (t :: z0 :: z1 :: z2 :: z3 :: z4 :: tail) =
      t.val * 2 ^ 32 + window (z0 :: z1 :: z2 :: z3 :: z4 :: tail) / 256 := by
  rw [window_five, window_five]
  have := z4.isLt
  omega

theorem decRenorm_of_ne (low high code : Nat) (rest : List Byte)
    (h : low >>> 32 ≠ high >>> 32) :
    decRenorm low high code rest = some (low, high, code, rest) := by
  cases rest with
  | nil => rw [decRenorm, if_neg h]
  | cons b rest => rw [decRenorm, if_neg h]

theorem renorm_sync :
    ∀ (fuel low high : Nat) (output : List Byte),
      renormUnderflows fuel low high = false → low ≤ high → high < 2 ^ 40 →
      (encRenorm fuel low high output).1 >>> 32 ≠ (encRenorm fuel low high output).2.1 >>> 32 →
      ∃ emitted : List Byte,
        (encRenorm fuel low high output).2.2 = output ++ emitted ∧
        ∀ next : List Byte, 5 ≤ next.length →
          (encRenorm fuel low high output).1 ≤ window next →
          window next ≤ (encRenorm fuel low high output).2.1 →
          low ≤ window (emitted ++ next) ∧ window (emitted ++ next) ≤ high ∧
          decRenorm low high (window (emitted ++ next)) ((emitted ++ next).drop 5) =
            some ((encRenorm fuel low high output).1, (encRenorm fuel low high output).2.1,
              window next, next.drop 5) := by
  intro fuel
  induction fuel with
  | zero =>
    intro low high output _ _ _ hne
    simp only [encRenorm] at hne ⊢
    refine ⟨[], by simp, ?_⟩
    intro next _ h1 h2
    simp only [List.nil_append]
    exact ⟨h1, h2, decRenorm_of_ne _ _ _ _ hne⟩
  | succ fuel ih =>
    intro low high output hu hlh hh hne
    rw [renormUnderflows] at hu
    rw [encRenorm] at hne ⊢
    by_cases heq : low >>> 32 = high >>> 32
    · rw [if_pos heq] at hu hne ⊢
      have heq2 := heq
      simp only [Nat.shiftRight_eq_div_pow] at heq2
      have hsh := shift_interval low high hlh heq2
      obtain ⟨e, he, hnext⟩ := ih (shiftLow low) (shiftHigh high)
        (output ++ [toByte (low >>> 32)]) hu hsh.1 hsh.2 hne
      refine ⟨toByte (low >>> 32) :: e, by rw [he]; simp, ?_⟩
      intro next hlen h1 h2
      obtain ⟨hlo, hhi, hdec⟩ := hnext next hlen h1 h2
      obtain ⟨z0, z1, z2, z3, z4, tail, hz⟩ := exists_five (e ++ next)
        (by rw [List.length_append]; omega)
      rw [hz] at hlo hhi hdec
      rw [List.cons_append, hz]
      have ht : (toByte (low >>> 32)).val = low / 2 ^ 32 := by
        simp only [toByte, Nat.shiftRight_eq_div_pow]
        omega
      rw [shiftLow_eq] at hlo
      rw [shiftHigh_eq] at hhi
      have hw := window_lt (z0 :: z1 :: z2 :: z3 :: z4 :: tail) (by simp)
      refine ⟨?_, ?_, ?_⟩
      · rw [window_cons, ht]; omega
      · rw [window_cons, ht]; omega
      · simp only [List.drop_succ_cons, List.drop_zero] at hdec ⊢
        rw [decRenorm, if_pos heq, window_shift]
        exact hdec
    · rw [if_neg heq] at hu hne ⊢
      have hnu : ¬ underflowCond low high := by simpa using hu
      rw [if_neg hnu] at hne ⊢
      refine ⟨[], by simp, ?_⟩
      intro next _ h1 h2
      simp only [List.nil_append]
      exact ⟨h1, h2, decRenorm_of_ne _ _ _ _ heq⟩

/-! ## The decoder follows an encoder that only settles bytes -/

theorem decodeLoop_step (fuel : Nat) (m : Model) (low high code sym : Nat)
    (rest decoded : List Byte) (hr : u64 (sub64 high low + 1) ≠ 0)
    (hf : findSymbol m.CumFreqs (decodeValue low high code m.total) (EOF + 1) 0 = some sym) :
    decodeLoop (fuel + 1) m low high code rest decoded =
      if sym = EOF then some (DecodeResult.ok decoded)
      else if m.total = 0 then some DecodeResult.divideByZero
      else
        match decRenorm
            (narrowLow low (u64 (sub64 high low + 1)) (m.CumFreqs.getD sym 0) m.total)
            (narrowHigh low (u64 (sub64 high low + 1)) (m.CumFreqs.getD (sym + 1) 0) m.total)
            code rest with
        | none => some DecodeResult.unexpectedEnd
        | some (low1, high1, code1, rest1) =>
          decodeLoop fuel (m.update sym) low1 high1 code1 rest1 (decoded ++ [toByte sym]) := by
  simp only [decodeValue, Model.total] at hf
  rw [decodeLoop]
  simp only [if_neg hr, hf, Model.total]

theorem encode_decode_symbol (st : EncState) (k sym : Nat) (h : EncInv st k)
    (hk : 257 + k < 2 ^ 24) (hsym : sym ≤ EOF)
    (hu : renormUnderflows 5 (encNarrow st sym).1 (encNarrow st sym).2 = false) :
    ∃ emitted : List Byte,
      (encodeSymbol st sym).output = st.output ++ emitted ∧
      ∀ next : List Byte, 5 ≤ next.length →
        (encodeSymbol st sym).low ≤ window next → window next ≤ (encodeSymbol st sym).high →
        st.low ≤ window (emitted ++ next) ∧ window (emitted ++ next) ≤ st.high ∧
        findSymbol st.model.CumFreqs
          (decodeValue st.low st.high (window (emitted ++ next)) st.model.total) (EOF + 1) 0 =
            some sym ∧
        decRenorm
          (narrowLow st.low (u64 (sub64 st.high st.low + 1)) (st.model.CumFreqs.getD sym 0)
            st.model.total)
          (narrowHigh st.low (u64 (sub64 st.high st.low + 1))
            (st.model.CumFreqs.getD (sym + 1) 0) st.model.total)
          (window (emitted ++ next)) ((emitted ++ next).drop 5) =
            some ((encodeSymbol st sym).low, (encodeSymbol st sym).high, window next,
              next.drop 5) := by
  have hn := encNarrow_facts st k sym h hk hsym
  obtain ⟨hr, _, _, hnl, hnh, hl1, hl2, hl3⟩ := hn
  obtain ⟨hinv, hpos, htot, hlh, hh, hrange⟩ := h
  have hdone := encRenorm_done (encNarrow st sym).1 (encNarrow st sym).2 st.output
  obtain ⟨e, he, hnext⟩ := renorm_sync 5 (encNarrow st sym).1 (encNarrow st sym).2 st.output
    hu hl2 (by omega) hdone.1
  refine ⟨e, by rw [encodeSymbol_eq]; exact he, ?_⟩
  intro next hlen h1 h2
  rw [encodeSymbol_eq] at h1 h2
  obtain ⟨hlo, hhi, hdec⟩ := hnext next hlen h1 h2
  have hb := ModelInv_cum_le_total st.model hinv (sym + 1)
    (by simp only [EOF] at hsym; simp only [TotalSymbolFreq]; omega)
  have hv := decodeValue_bounds st.low st.high (window (e ++ next)) st.model.total
    (st.model.CumFreqs.getD sym 0) (st.model.CumFreqs.getD (sym + 1) 0) hlh hh (by omega) hb
    (by rw [← hnl]; exact hlo) (by rw [← hnh]; omega)
  refine ⟨by omega, by omega, findSymbol_of_inv st.model hinv _ sym hsym hv, ?_⟩
  rw [encodeSymbol_eq]
  exact hdec

theorem intData_cons (b : Byte) (data : List Byte) :
    intData (b :: data) = b.val :: intData data := by
  simp [intData]

theorem toByte_val (b : Byte) : toByte b.val = b := by
  apply Fin.ext
  simp only [toByte]
  exact Nat.mod_eq_of_lt b.isLt

theorem roundtrip_from :
    ∀ (data : List Byte) (st : EncState) (k : Nat) (decoded : List Byte),
      EncInv st k → 257 + k + data.length < 2 ^ 24 →
      encodeUnderflows st (intData data) = false →
      ∃ emitted : List Byte,
        ((intData data).foldl encodeSymbol st).output = st.output ++ emitted ∧
        st.low ≤ window (emitted ++ finalBytes ((intData data).foldl encodeSymbol st).low) ∧
        window (emitted ++ finalBytes ((intData data).foldl encodeSymbol st).low) ≤ st.high ∧
        decodeLoop (data.length + 1) st.model st.low st.high
          (window (emitted ++ finalBytes ((intData data).foldl encodeSymbol st).low))
          ((emitted ++ finalBytes ((intData data).foldl encodeSymbol st).low).drop 5) decoded =
            some (DecodeResult.ok (decoded ++ data)) := by
  intro data
  induction data with
  | nil =>
    intro st k decoded h hk hu
    have hd : intData ([] : List Byte) = [EOF] := rfl
    rw [hd] at hu ⊢
    simp only [List.foldl_cons, List.foldl_nil, List.length_nil]
    have hu1 : renormUnderflows 5 (encNarrow st EOF).1 (encNarrow st EOF).2 = false := by
      simpa [encodeUnderflows] using hu
    obtain ⟨e, he, hnext⟩ := encode_decode_symbol st k EOF h (by omega) (Nat.le_refl _) hu1
    have h1 := EncInv_step st k EOF h (by omega) (Nat.le_refl _)
    have hw : window (finalBytes (encodeSymbol st EOF).low) = (encodeSymbol st EOF).low := by
      rw [window_finalBytes]
      have := h1.2.2.2.1
      have := h1.2.2.2.2.1
      exact Nat.mod_eq_of_lt (by omega)
    obtain ⟨hlo, hhi, hfind, _⟩ := hnext (finalBytes (encodeSymbol st EOF).low)
      (by rw [finalBytes_length]) (by rw [hw]) (by rw [hw]; exact h1.2.2.2.1)
    have hr : u64 (sub64 st.high st.low + 1) ≠ 0 := by
      rw [rangeSize_exact st.low st.high h.2.2.2.1 h.2.2.2.2.1]
      omega
    refine ⟨e, he, hlo, hhi, ?_⟩
    show decodeLoop (0 + 1) _ _ _ _ _ _ = _
    rw [decodeLoop_step 0 st.model st.low st.high _ EOF _ decoded hr hfind, if_pos rfl]
    simp
  | cons b data ih =>
    intro st k decoded h hk hu
    simp only [List.length_cons] at hk
    have hb : b.val ≤ EOF := by have := b.isLt; simp only [EOF]; omega
    rw [intData_cons] at hu ⊢
    simp only [encodeUnderflows, Bool.or_eq_false_iff] at hu
    obtain ⟨hu1, hu2⟩ := hu
    obtain ⟨e1, he1, hnext⟩ := encode_decode_symbol st k b.val h (by omega) hb hu1
    have h1 := EncInv_step st k b.val h (by omega) hb
    obtain ⟨e2, he2, hlo2, hhi2, hdec2⟩ := ih (encodeSymbol st b.val) (k + 1)
      (decoded ++ [b]) h1 (by omega) hu2
    simp only [List.foldl_cons]
    obtain ⟨hlo, hhi, hfind, hdec⟩ := hnext
      (e2 ++ finalBytes ((intData data).foldl encodeSymbol (encodeSymbol st b.val)).low)
      (by rw [List.length_append, finalBytes_length]; omega) hlo2 hhi2
    have hr : u64 (sub64 st.high st.low + 1) ≠ 0 := by
      rw [rangeSize_exact st.low st.high h.2.2.2.1 h.2.2.2.2.1]
      omega
    have hne : b.val ≠ EOF := by have := b.isLt; simp only [EOF]; omega
    have htot : st.model.total ≠ 0 := by rw [h.2.2.1]; omega
    refine ⟨e1 ++ e2, by rw [he2, he1, List.append_assoc], ?_, ?_, ?_⟩
    · rw [List.append_assoc]; exact hlo
    · rw [List.append_assoc]; exact hhi
    · rw [List.append_assoc, List.length_cons,
        decodeLoop_step (data.length + 1) st.model st.low st.high _ b.val _ decoded hr hfind,
        if_neg hne, if_neg htot, hdec]
      simp only
      rw [toByte_val]
      have hm : (encodeSymbol st b.val).model = st.model.update b.val := rfl
      rw [← hm, hdec2]
      simp

theorem Decompress_Compress_of_no_underflow (d : List Byte) (hd : d.length < 2 ^ 24 - 257)
    (hu : CompressUnderflows d = false) (k : Nat) :
    Decompress (d.length + 1 + k) (Compress d) = some (DecodeResult.ok d) := by
  have hmain : Decompress (d.length + 1) (Compress d) = some (DecodeResult.ok d) := by
    obtain ⟨e, he, _, _, hdec⟩ := roundtrip_from d encInit 0 [] EncInv_init (by omega) hu
    have hout : encInit.output = [] := rfl
    rw [hout, List.nil_append] at he
    have hc : Compress d = e ++ finalBytes ((intData d).foldl encodeSymbol encInit).low := by
      simp only [Compress, he]
    rw [Decompress_eq_decodeLoop _ _ (by
      rw [hc, List.length_append, finalBytes_length]; omega), hc]
    simpa using hdec
  exact Decompress_fuel_add k _ _ _ hmain

/-! ## Theorems on `Compress` and `Decompress` -/

/-- C1: the round trip fails on the input `[0, 84]`. `Compress` takes its underflow branch while
it encodes the end-of-stream symbol and returns `00 54 54 5a e7 58 00`; on these bytes `Decompress`, whose renormalisation
has no such branch, decodes four symbols and then returns the error "fin inattendue des données"
for every number of loop iterations it is given from four on, and it never returns `[0, 84]`. -/
theorem C1_roundtrip_fails_at_0_84 :
    Compress [0, 84] = [0, 84, 84, 90, 231, 88, 0] ∧
    (∀ fuel, Decompress (fuel + 4) (Compress [0, 84]) = some DecodeResult.unexpectedEnd) ∧
    (∀ fuel, Decompress fuel (Compress [0, 84]) ≠ some (DecodeResult.ok [0, 84])) := by
  have h4 : Decompress 4 (Compress [0, 84]) = some DecodeResult.unexpectedEnd := by decide!
  have hall : ∀ fuel, Decompress (fuel + 4) (Compress [0, 84]) =
      some DecodeResult.unexpectedEnd := by
    intro fuel
    rw [Nat.add_comm]
    exact Decompress_fuel_add fuel 4 _ _ h4
  refine ⟨by decide!, hall, ?_⟩
  intro fuel
  by_cases hf : 4 ≤ fuel
  · obtain ⟨k, rfl⟩ := Nat.exists_eq_add_of_le hf
    rw [Nat.add_comm, hall k]
    simp
  · have h3 : Decompress 3 (Compress [0, 84]) = none := by decide!
    intro hok
    have := Decompress_fuel_add (3 - fuel) fuel _ _ hok
    rw [show fuel + (3 - fuel) = 3 by omega, h3] at this
    simp at this

/-- C2 (as stated, refuted): the output of `Compress` on the empty input does not have 5 bytes. -/
theorem C2_empty_not_five_bytes : (Compress []).length ≠ 5 := by decide!

/-- C2 (amended): on the empty input the only symbol is `EOF`, its interval
`[0xFF00FF00FF, 0xFFFFFFFFFF]` has equal top bytes, so the renormalisation emits the byte `0xFF`
once and leaves `low = 0x00FF00FF00`; `Compress` returns that byte followed by the five bytes of
`low`, six bytes in all. -/
theorem C2_empty_six_bytes :
    (encodeSymbol encInit EOF).output = [0xFF] ∧
    (encodeSymbol encInit EOF).low = 0x00FF00FF00 ∧
    Compress [] = [0xFF, 0x00, 0xFF, 0x00, 0xFF, 0x00] ∧
    (Compress []).length = 6 := by
  decide!

/-- C3: `Decompress` returns the error "données compressées trop courtes" exactly on the inputs
of fewer than 5 bytes, whatever the number of loop iterations it is given. -/
theorem C3_tooShort_iff (fuel : Nat) (c : List Byte) :
    Decompress fuel c = some DecodeResult.tooShort ↔ c.length < 5 := by
  constructor
  · intro h
    by_contra hlen
    exact Decompress_ne_tooShort_of_length fuel c (by omega) h
  · exact Decompress_tooShort_of_length fuel c

/-- C4 (as stated, refuted): the first 5 bytes of `Compress []` are a proper prefix of it, and
`Decompress` returns the empty sequence on them. -/
theorem C4_prefix_decodes :
    (Compress []).take 5 <+: Compress [] ∧ (Compress []).take 5 ≠ Compress [] ∧
    5 ≤ ((Compress []).take 5).length ∧
    Decompress 1 ((Compress []).take 5) = some (DecodeResult.ok []) := by
  refine ⟨List.take_prefix _ _, ?_, ?_, ?_⟩ <;> decide!

/-- On the input `[123, 125]` the encoder takes its underflow branch, and `Decompress` returns
`[123, 124]` without an error on the first 6 of the 7 bytes of `Compress [123, 125]`, as it does
on all 7 of them. -/
theorem prefix_after_underflow_decodes_wrong :
    CompressUnderflows [123, 125] = true ∧ (Compress [123, 125]).length = 7 ∧
    Decompress 3 ((Compress [123, 125]).take 6) = some (DecodeResult.ok [123, 124]) ∧
    Decompress 3 (Compress [123, 125]) = some (DecodeResult.ok [123, 124]) := by
  decide!

/-- C4 (amended): let `p` be a prefix of `Compress d` with at least 5 bytes. If `d` has fewer than
`2^24 - 257` bytes and the encoder never takes its underflow branch on `d`, then `Decompress`
on `p`, with `len(d) + 1` iterations of its outer loop or more, either returns the error "fin
inattendue des données" or returns `d`. More generally this holds for every `d` on which the
round trip holds: with a number of iterations for which `Decompress` returns `d` on `Compress d`,
it returns that error or `d` on `p`. -/
theorem C4_prefix_truncated_or_d (d p : List Byte) (hp : p <+: Compress d)
    (hlen : 5 ≤ p.length) :
    (d.length < 2 ^ 24 - 257 → CompressUnderflows d = false → ∀ k,
      Decompress (d.length + 1 + k) p = some DecodeResult.unexpectedEnd ∨
      Decompress (d.length + 1 + k) p = some (DecodeResult.ok d)) ∧
    (∀ fuel, Decompress fuel (Compress d) = some (DecodeResult.ok d) →
      Decompress fuel p = some DecodeResult.unexpectedEnd ∨
      Decompress fuel p = some (DecodeResult.ok d)) := by
  obtain ⟨t, ht⟩ := hp
  have hgen : ∀ fuel, Decompress fuel (Compress d) = some (DecodeResult.ok d) →
      Decompress fuel p = some DecodeResult.unexpectedEnd ∨
      Decompress fuel p = some (DecodeResult.ok d) := by
    intro fuel hrt
    by_cases h : Decompress fuel p = some DecodeResult.unexpectedEnd
    · exact Or.inl h
    · right
      rw [← Decompress_append fuel p t hlen h, ht]
      exact hrt
  exact ⟨fun hd hu k => hgen _ (Decompress_Compress_of_no_underflow d hd hu k), hgen⟩

/-- Witness for C4 (amended): the first 6 of the 8 bytes of `Compress [1, 2, 3]`, an input on which
the encoder never takes its underflow branch; `Decompress` returns the error on them. -/
theorem C4_prefix_truncated_or_d_witness :
    (Compress [1, 2, 3]).take 6 ≠ Compress [1, 2, 3] ∧
    CompressUnderflows [1, 2, 3] = false ∧
    Decompress 4 ((Compress [1, 2, 3]).take 6) = some DecodeResult.unexpectedEnd ∧
    (Decompress 4 ((Compress [1, 2, 3]).take 6) = some DecodeResult.unexpectedEnd ∨
      Decompress 4 ((Compress [1, 2, 3]).take 6) = some (DecodeResult.ok [1, 2, 3])) :=
  ⟨by decide!, by decide!, by decide!,
    (C4_prefix_truncated_or_d [1, 2, 3] _ (List.take_prefix _ _) (by decide!)).1
      (by decide) (by decide!) 0⟩

/-- C5: trailing bytes are ignored: if `Decompress` returns `r` on `c`, it returns `r` on
`c ++ t`, with the same number of loop iterations. -/
theorem C5_trailing_bytes_ignored (fuel : Nat) (c t r : List Byte)
    (h : Decompress fuel c = some (DecodeResult.ok r)) :
    Decompress fuel (c ++ t) = some (DecodeResult.ok r) := by
  have hlen : 5 ≤ c.length := by
    by_contra hlt
    have := Decompress_tooShort_of_length fuel c (by omega)
    rw [h] at this
    simp at this
  rw [Decompress_append fuel c t hlen (by rw [h]; simp), h]

/-- Witness for C5: `Compress []` followed by three more bytes. -/
theorem C5_trailing_bytes_ignored_witness :
    Decompress 1 [255, 0, 255, 0, 255, 0] = some (DecodeResult.ok []) ∧
    Decompress 1 ([255, 0, 255, 0, 255, 0] ++ [1, 2, 3]) = some (DecodeResult.ok []) :=
  ⟨by decide!, C5_trailing_bytes_ignored 1 [255, 0, 255, 0, 255, 0] [1, 2, 3] [] (by decide!)⟩

/-- C16: the renormalisation loops of `Compress` and `Decompress` are not symmetric. On
`low = 0x54FF5AE758`, `high = 0x550054FFFF`, the interval left by the narrowing for `EOF` when
`Compress` runs on `[0, 84]`, the loop of `Compress` takes its underflow branch: it emits the byte
`0x54` and ends on `low = 0x545AE75800`, `high = 0x5554FFFFFF`; the loop of `Decompress` has no
such branch: it pulls no byte and ends on the `low` and `high` it started with, whatever the code
and the remaining input. -/
theorem C16_renorm_not_symmetric :
    encNarrow (encodeSymbol (encodeSymbol encInit 0) 84) EOF = (0x54FF5AE758, 0x550054FFFF) ∧
    (0x54FF5AE758 : Nat) ≤ 0x550054FFFF ∧ (0x550054FFFF : Nat) ≤ 2 ^ 40 - 1 ∧
    encRenorm 5 0x54FF5AE758 0x550054FFFF [] = (0x545AE75800, 0x5554FFFFFF, [0x54]) ∧
    ∀ (code : Nat) (rest : List Byte),
      decRenorm 0x54FF5AE758 0x550054FFFF code rest =
        some (0x54FF5AE758, 0x550054FFFF, code, rest) := by
  refine ⟨by decide!, by decide, by decide, by decide!, ?_⟩
  intro code rest
  cases rest with
  | nil => rw [decRenorm, if_neg (by decide)]
  | cons b rest => rw [decRenorm, if_neg (by decide)]

/-- C19: the renormalisation loops are bounded. For every `low` and `high`, the loop of
`Compress` is at its `break` after at most five iterations, each of which emits one byte, and more
iterations change nothing; so `Compress` returns at most `5 * (n + 1) + 5` bytes on an input of
`n` bytes. The loop of `Decompress` stops with different top bytes after pulling at most five
bytes, and it does not run out of input when five bytes are left. -/
theorem C19_renorm_bounded :
    (∀ (low high : Nat) (output : List Byte),
      renormDone (encRenorm 5 low high output).1 (encRenorm 5 low high output).2.1 ∧
      (∃ emitted : List Byte, emitted.length ≤ 5 ∧
        (encRenorm 5 low high output).2.2 = output ++ emitted) ∧
      ∀ k, encRenorm (5 + k) low high output = encRenorm 5 low high output) ∧
    (∀ d : List Byte, (Compress d).length ≤ 5 * (d.length + 1) + 5) ∧
    (∀ (low high code : Nat) (rest : List Byte),
      (∀ r, decRenorm low high code rest = some r →
        r.1 >>> 32 ≠ r.2.1 >>> 32 ∧
        ∃ pulled : List Byte, pulled.length ≤ 5 ∧ rest = pulled ++ r.2.2.2) ∧
      (5 ≤ rest.length → decRenorm low high code rest ≠ none)) := by
  refine ⟨?_, ?_, ?_⟩
  · intro low high output
    exact ⟨encRenorm_done low high output, encRenorm_output 5 low high output,
      fun k => encRenorm_fuel_add 5 k low high output (encRenorm_done low high output)⟩
  · intro d
    have h := encode_output_length (intData d) encInit
    simp only [Compress, List.length_append, finalBytes_length]
    have h0 : encInit.output.length = 0 := rfl
    have h1 : (intData d).length = d.length + 1 := by simp [intData]
    omega
  · intro low high code rest
    have h := decRenorm_bound rest 0 low high code (by decide) (Or.inl rfl)
      (by simp [Nat.mod_one]) (by simp [Nat.mod_one])
    exact ⟨fun r hr => by
      obtain ⟨hne, pulled, hp, hrest⟩ := h.1 r hr
      exact ⟨hne, pulled, by omega, hrest⟩, fun h5 => h.2 (by omega)⟩

/-- C12: the frequency model invariant. `NewInitialModel` has `Freq[s] = 1` for `s = 0 .. 256`
and `CumFreqs[i] = i` for `i = 0 .. 257`, and satisfies the invariant. For every model that
satisfies the invariant `CumFreqs[0] = 0`, `CumFreqs[s+1] = CumFreqs[s] + Freq[s]` with a total
below `2^64 - 1`, the update for a symbol `sym = 0 .. 256` gives a model that satisfies the
invariant, has a non-decreasing `CumFreqs`, and has the total plus one. The bound on the total
holds in every run: the model reached from `NewInitialModel` by the updates for any symbols
`syms` satisfies the invariant, is non-decreasing and has the total `257 + len(syms)`, as long as
this number is a `uint64`. And with the difference `CumFreqs[s+1] - CumFreqs[s]` taken in `uint64`
arithmetic, as the code computes it, the update preserves the invariant for every model. -/
theorem C12_model_invariant :
    (∀ s, s < 257 → NewInitialModel.Freq.getD s 0 = 1) ∧
    (∀ i, i < 258 → NewInitialModel.CumFreqs.getD i 0 = i) ∧
    ModelInv NewInitialModel ∧
    (∀ (m : Model) (sym : Nat), ModelInv m → sym ≤ EOF → m.total < 2 ^ 64 - 1 →
      ModelInv (m.update sym) ∧ CumMonotone (m.update sym) ∧
      (m.update sym).total = m.total + 1) ∧
    (∀ syms : List Nat, (∀ s ∈ syms, s ≤ EOF) → 257 + syms.length < 2 ^ 64 →
      ModelInv (syms.foldl Model.update NewInitialModel) ∧
      CumMonotone (syms.foldl Model.update NewInitialModel) ∧
      (syms.foldl Model.update NewInitialModel).total = 257 + syms.length) ∧
    (∀ (m : Model) (sym : Nat), ModelInv64 m → sym ≤ EOF → ModelInv64 (m.update sym)) := by
  refine ⟨by decide!, by decide!, NewInitialModel_facts.1, ?_, ?_, ?_⟩
  · intro m sym h hsym htot
    have hu := ModelInv_update m sym h hsym htot
    exact ⟨hu.1, ModelInv_monotone _ hu.1, hu.2.1⟩
  · intro syms hs hlen
    have h := foldl_update_total syms NewInitialModel NewInitialModel_facts.1 hs
      (by rw [NewInitialModel_facts.2.2]; exact hlen)
    refine ⟨h.1, ModelInv_monotone _ h.1, ?_⟩
    rw [h.2, NewInitialModel_facts.2.2]
  · intro m sym h hsym
    exact ModelInv64_update m sym h hsym

/-- Witness for C12: the update of `NewInitialModel` for the symbol 65, and the model after the
updates for the symbols 65, 66 and 256. -/
theorem C12_model_invariant_witness :
    (ModelInv (NewInitialModel.update 65) ∧ CumMonotone (NewInitialModel.update 65) ∧
      (NewInitialModel.update 65).total = NewInitialModel.total + 1) ∧
    (ModelInv ([65, 66, 256].foldl Model.update NewInitialModel) ∧
      CumMonotone ([65, 66, 256].foldl Model.update NewInitialModel) ∧
      ([65, 66, 256].foldl Model.update NewInitialModel).total = 257 + [65, 66, 256].length) ∧
    ModelInv64 (NewInitialModel.update 65) :=
  ⟨C12_model_invariant.2.2.2.1 NewInitialModel 65 (by decide!) (by decide) (by decide!),
    C12_model_invariant.2.2.2.2.1 [65, 66, 256] (by decide) (by decide),
    C12_model_invariant.2.2.2.2.2 NewInitialModel 65 (by decide!) (by decide)⟩

/-- C15: decoder symbol recovery. For a model that satisfies the invariant with a total below
`2^24`, an interval `low <= high <= 2^40 - 1`, a symbol `s = 0 .. 256` and a code in the narrowed
interval of `s`, that is `low + range*cum[s]/total <= code < low + range*cum[s+1]/total` with
`range = high - low + 1`: these bounds are the `newLow` and `newHigh + 1` computed by the code,
the value computed by `Decompress` satisfies `cum[s] <= value < cum[s+1]`, and its search loop
returns `s`. -/
theorem C15_decoder_symbol_recovery (m : Model) (low high s code : Nat)
    (hinv : ModelInv m) (htot : m.total < 2 ^ 24) (hlh : low ≤ high) (hh : high ≤ 2 ^ 40 - 1)
    (hs : s ≤ EOF)
    (hlo : low + (high - low + 1) * m.CumFreqs.getD s 0 / m.total ≤ code)
    (hhi : code + 1 ≤ low + (high - low + 1) * m.CumFreqs.getD (s + 1) 0 / m.total) :
    narrowLow low (u64 (sub64 high low + 1)) (m.CumFreqs.getD s 0) m.total =
      low + (high - low + 1) * m.CumFreqs.getD s 0 / m.total ∧
    narrowHigh low (u64 (sub64 high low + 1)) (m.CumFreqs.getD (s + 1) 0) m.total + 1 =
      low + (high - low + 1) * m.CumFreqs.getD (s + 1) 0 / m.total ∧
    m.CumFreqs.getD s 0 ≤ decodeValue low high code m.total ∧
    decodeValue low high code m.total < m.CumFreqs.getD (s + 1) 0 ∧
    findSymbol m.CumFreqs (decodeValue low high code m.total) (EOF + 1) 0 = some s := by
  have hh' : high < 2 ^ 40 := by omega
  simp only [EOF] at hs
  have ha := ModelInv_cum_le_total m hinv s (by simp only [TotalSymbolFreq]; omega)
  have hb := ModelInv_cum_le_total m hinv (s + 1) (by simp only [TotalSymbolFreq]; omega)
  have hv := decodeValue_bounds low high code m.total _ _ hlh hh' htot hb hlo hhi
  rw [rangeSize_exact low high hlh hh']
  refine ⟨narrowLow_exact low high _ _ hlh hh' htot ha,
    narrowHigh_exact low high _ _ hlh hh' htot hb (by omega), hv.1, hv.2,
    findSymbol_of_inv m hinv _ s (by simp only [EOF]; omega) hv⟩

/-- Witness for C15: the initial model and interval, the symbol 65 and the code
`0x4180000000`. -/
theorem C15_decoder_symbol_recovery_witness :
    findSymbol NewInitialModel.CumFreqs
      (decodeValue 0 (2 ^ 40 - 1) 0x4180000000 NewInitialModel.total) (EOF + 1) 0 = some 65 :=
  (C15_decoder_symbol_recovery NewInitialModel 0 (2 ^ 40 - 1) 65 0x4180000000
    (by decide!) (by decide!) (by decide) (by decide) (by decide) (by decide!)
    (by decide!)).2.2.2.2

/-- C13: monotonic narrowing. On an input of fewer than `2^24 - 257` bytes, for the symbol of
index `j` of the run of `Compress`: after the narrowing (`fuel = 0`) and after each iteration of
the renormalisation loop (`fuel = 1, 2, ...`), `low <= high <= 2^40 - 1`; the same holds for the
state kept for the next symbol. -/
theorem C13_monotonic_narrowing (d : List Byte) (j fuel : Nat) (hd : d.length < 2 ^ 24 - 257)
    (hj : j < (intData d).length) :
    (encRenorm fuel (encNarrow (encStateAt d j) (symAt d j)).1
        (encNarrow (encStateAt d j) (symAt d j)).2 (encStateAt d j).output).1 ≤
      (encRenorm fuel (encNarrow (encStateAt d j) (symAt d j)).1
        (encNarrow (encStateAt d j) (symAt d j)).2 (encStateAt d j).output).2.1 ∧
    (encRenorm fuel (encNarrow (encStateAt d j) (symAt d j)).1
        (encNarrow (encStateAt d j) (symAt d j)).2 (encStateAt d j).output).2.1 ≤ 2 ^ 40 - 1 ∧
    (encStateAt d (j + 1)).low ≤ (encStateAt d (j + 1)).high ∧
    (encStateAt d (j + 1)).high ≤ 2 ^ 40 - 1 := by
  have hlen := intData_length d
  have hinv := EncInv_prefix d j hd (by omega)
  have hn := encNarrow_facts (encStateAt d j) j (symAt d j) hinv (by omega) (symAt_le d j)
  have hh := hinv.2.2.2.2.1
  have hnh := hn.2.2.2.2.2.2.2
  have hint := encRenorm_interval fuel (encNarrow (encStateAt d j) (symAt d j)).1
    (encNarrow (encStateAt d j) (symAt d j)).2 (encStateAt d j).output hn.2.2.2.2.2.2.1
    (by omega)
  have hinv1 := EncInv_prefix d (j + 1) hd (by omega)
  have hh1 := hinv1.2.2.2.2.1
  exact ⟨hint.1, by omega, hinv1.2.2.2.1, by omega⟩

/-- Witness for C13: the input `[65]`, its second symbol `EOF`, one iteration. -/
theorem C13_monotonic_narrowing_witness :
    (encRenorm 1 (encNarrow (encStateAt [65] 1) (symAt [65] 1)).1
        (encNarrow (encStateAt [65] 1) (symAt [65] 1)).2 (encStateAt [65] 1).output).1 ≤
      (encRenorm 1 (encNarrow (encStateAt [65] 1) (symAt [65] 1)).1
        (encNarrow (encStateAt [65] 1) (symAt [65] 1)).2 (encStateAt [65] 1).output).2.1 :=
  (C13_monotonic_narrowing [65] 1 1 (by decide) (by decide)).1

/-- C14: the end of the output of `Compress`. The finalisation runs with `removedBytes = 0`,
the only value this variable is given, so no byte depends on `savedLow`; the output has at least
5 bytes and its last 5 bytes are the bytes `byte((low >> (8*(4-i))) & 0xFF)`, `i = 0 .. 4`, of the
final `low`, that is the big-endian digits of `low mod 2^40`; and on an input of fewer than
`2^24 - 257` bytes the final `low` is below `2^40`. -/
theorem C14_final_bytes (d : List Byte) :
    Compress d = finalize 0 0 ((intData d).foldl encodeSymbol encInit).low
      ((intData d).foldl encodeSymbol encInit).output ∧
    (∀ (savedLow low : Nat) (output : List Byte),
      finalize 0 savedLow low output = output ++ finalBytes low) ∧
    5 ≤ (Compress d).length ∧
    (Compress d).drop ((Compress d).length - 5) =
      finalBytes ((intData d).foldl encodeSymbol encInit).low ∧
    (finalBytes ((intData d).foldl encodeSymbol encInit).low).length = 5 ∧
    window (finalBytes ((intData d).foldl encodeSymbol encInit).low) =
      ((intData d).foldl encodeSymbol encInit).low % 2 ^ 40 ∧
    (d.length < 2 ^ 24 - 257 → ((intData d).foldl encodeSymbol encInit).low < 2 ^ 40) := by
  refine ⟨?_, finalize_zero, ?_, ?_, finalBytes_length _, window_finalBytes _, ?_⟩
  · rw [finalize_zero]; rfl
  · simp only [Compress, List.length_append, finalBytes_length]
    omega
  · simp only [Compress, List.length_append, finalBytes_length, Nat.add_sub_cancel]
    exact List.drop_left _ _
  · intro hd
    have hinv := EncInv_prefix d (d.length + 1) hd (by rw [intData_length])
    have h1 := hinv.2.2.2.1
    have h2 := hinv.2.2.2.2.1
    rw [encStateAt_full d] at h1 h2
    omega

/-- Witness for C14: on the input `[65]` the final `low` is below `2^40`. -/
theorem C14_final_bytes_witness :
    ((intData [65]).foldl encodeSymbol encInit).low < 2 ^ 40 :=
  (C14_final_bytes [65]).2.2.2.2.2.2 (by decide)

/-- C18: no wrap-around in the narrowing. After the symbols `syms` (values `0 .. 256`, and few
enough for the total to fit a `uint64`, as is every Go slice) the total of the model is
`257 + len(syms)`. On an input of fewer than `2^24 - 257` bytes, for the symbol of index `j`:
the total is `257 + j`, `rangeSize` is `high - low + 1`, the products `rangeSize*lowFreq` and
`rangeSize*highFreq` are below `2^64`, and `newLow` and `newHigh` are given by the same
expressions in exact integer arithmetic. -/
theorem C18_no_wraparound :
    (∀ syms : List Nat, (∀ s ∈ syms, s ≤ EOF) → 257 + syms.length < 2 ^ 64 →
      (syms.foldl encodeSymbol encInit).model.total = 257 + syms.length) ∧
    (∀ (d : List Byte) (j : Nat), d.length < 2 ^ 24 - 257 → j < (intData d).length →
      (encStateAt d j).model.total = 257 + j ∧
      u64 (sub64 (encStateAt d j).high (encStateAt d j).low + 1) =
        (encStateAt d j).high - (encStateAt d j).low + 1 ∧
      u64 (sub64 (encStateAt d j).high (encStateAt d j).low + 1) *
        (encStateAt d j).model.CumFreqs.getD (symAt d j) 0 < 2 ^ 64 ∧
      u64 (sub64 (encStateAt d j).high (encStateAt d j).low + 1) *
        (encStateAt d j).model.CumFreqs.getD (symAt d j + 1) 0 < 2 ^ 64 ∧
      (encNarrow (encStateAt d j) (symAt d j)).1 =
        (encStateAt d j).low + ((encStateAt d j).high - (encStateAt d j).low + 1) *
          (encStateAt d j).model.CumFreqs.getD (symAt d j) 0 / (encStateAt d j).model.total ∧
      (encNarrow (encStateAt d j) (symAt d j)).2 + 1 =
        (encStateAt d j).low + ((encStateAt d j).high - (encStateAt d j).low + 1) *
          (encStateAt d j).model.CumFreqs.getD (symAt d j + 1) 0 /
            (encStateAt d j).model.total) := by
  constructor
  · intro syms hs hlen
    rw [foldl_encodeSymbol_model]
    have h := foldl_update_total syms encInit.model NewInitialModel_facts.1 hs
      (by rw [show encInit.model.total = 257 from NewInitialModel_facts.2.2]; exact hlen)
    rw [h.2]
    rw [show encInit.model.total = 257 from NewInitialModel_facts.2.2]
  · intro d j hd hj
    have hlen := intData_length d
    have hinv := EncInv_prefix d j hd (by omega)
    have hn := encNarrow_facts (encStateAt d j) j (symAt d j) hinv (by omega) (symAt_le d j)
    rw [hn.1]
    exact ⟨hinv.2.2.1, rfl, hn.2.1, hn.2.2.1, hn.2.2.2.1, hn.2.2.2.2.1⟩

/-- Witness for C18: the total after the symbols `65, 256`, and the first symbol of the input
`[65]`. -/
theorem C18_no_wraparound_witness :
    (([65, 256] : List Nat).foldl encodeSymbol encInit).model.total = 257 + 2 ∧
    (encStateAt [65] 0).model.total = 257 + 0 :=
  ⟨C18_no_wraparound.1 [65, 256] (by decide) (by decide),
    (C18_no_wraparound.2 [65] 0 (by decide) (by decide)).1⟩

/-- C17: conditional round trip. On an input `d` of fewer than `2^24 - 257` bytes on which
`Compress` never takes the underflow branch of its renormalisation loop, `Decompress` run on
`Compress d` returns `d`: with `len(d) + 1` iterations of its outer loop, and with any larger
number of iterations allowed. -/
theorem C17_conditional_roundtrip (d : List Byte) (hd : d.length < 2 ^ 24 - 257)
    (hu : CompressUnderflows d = false) :
    Decompress (d.length + 1) (Compress d) = some (DecodeResult.ok d) ∧
    ∀ k, Decompress (d.length + 1 + k) (Compress d) = some (DecodeResult.ok d) := by
  have hmain : Decompress (d.length + 1) (Compress d) = some (DecodeResult.ok d) := by
    obtain ⟨e, he, _, _, hdec⟩ := roundtrip_from d encInit 0 [] EncInv_init (by omega) hu
    have hout : encInit.output = [] := rfl
    rw [hout, List.nil_append] at he
    have hc : Compress d = e ++ finalBytes ((intData d).foldl encodeSymbol encInit).low := by
      simp only [Compress, he]
    rw [Decompress_eq_decodeLoop _ _ (by
      rw [hc, List.length_append, finalBytes_length]; omega), hc]
    simpa using hdec
  exact ⟨hmain, fun k => Decompress_fuel_add k _ _ _ hmain⟩

/-- Witness for C17: the input `[65]`. -/
theorem C17_conditional_roundtrip_witness :
    Decompress ([65].length + 1) (Compress [65]) = some (DecodeResult.ok [65]) :=
  (C17_conditional_roundtrip [65] (by decide) (by decide!)).1

end ArithCoder

namespace bits_io

open ArithCoder (Byte toByte u64 sub64)

/-! ## Lemmas on bit operations -/

theorem xor_eq_add_of_lt {b i : Nat} (hb : b < 2 ^ i) (a : Nat) :
    (2 ^ i * a) ^^^ b = 2 ^ i * a + b := by
  rw [Nat.mul_add_lt_is_or hb]
  apply Nat.eq_of_testBit_eq
  intro j
  simp only [Nat.testBit_xor, Nat.testBit_or, Nat.testBit_mul_pow_two]
  by_cases hj : i ≤ j
  · have hlt : b < 2 ^ j := Nat.lt_of_lt_of_le hb (Nat.pow_le_pow_right (by decide) hj)
    simp [Nat.testBit_lt_two_pow hlt]
  · simp [hj]

theorem byteMask_eq {s : Nat} (hs : s ≤ 8) : sub8 (u8 (1 <<< s)) 1 = 2 ^ s - 1 := by
  interval_cases s <;> rfl

theorem u8_one_shiftLeft {i : Nat} (hi : i < 8) : u8 (1 <<< i) = 2 ^ i := by
  interval_cases i <;> rfl

theorem mod_two_pow_eq_zero_of_testBit {x i : Nat} (h : ∀ j, j < i → x.testBit j = false) :
    x % 2 ^ i = 0 := by
  apply Nat.eq_of_testBit_eq
  intro j
  rw [Nat.testBit_mod_two_pow, Nat.zero_testBit]
  by_cases hj : j < i
  · simp [h j hj]
  · simp [hj]

theorem lowest_bit_mod {x i : Nat} (hi : x.testBit i = true)
    (hlow : ∀ j, j < i → x.testBit j = false) : x % 2 ^ (i + 1) = 2 ^ i := by
  have h0 := mod_two_pow_eq_zero_of_testBit hlow
  rw [Nat.testBit_to_div_mod] at hi
  simp only [decide_eq_true_eq] at hi
  rw [Nat.mod_pow_succ, h0, hi]
  simp

theorem below_lowest_bit_mod {x i j : Nat} (hlow : ∀ k, k < i → x.testBit k = false)
    (hj : j < i) : x % 2 ^ (j + 1) ≠ 2 ^ j := by
  have h0 := mod_two_pow_eq_zero_of_testBit hlow
  have hdvd : 2 ^ (j + 1) ∣ 2 ^ i := Nat.pow_dvd_pow 2 hj
  have : x % 2 ^ (j + 1) = 0 := by
    rw [← Nat.mod_mod_of_dvd x hdvd, h0, Nat.zero_mod]
  rw [this]
  exact Nat.ne_of_lt (Nat.two_pow_pos j)

theorem testBit_lt_eight {x i : Nat} (hx : x < 256) (hi : x.testBit i = true) : i < 8 := by
  by_contra h
  have hlt : x < 2 ^ i :=
    Nat.lt_of_lt_of_le hx (by
      have : 2 ^ 8 ≤ 2 ^ i := Nat.pow_le_pow_right (by decide) (by omega)
      simpa using this)
  rw [Nat.testBit_lt_two_pow hlt] at hi
  exact absurd hi (by simp)

/-! ## Lemmas on `WriteBits` -/

theorem bval_concat (init : List Byte) (last : Byte) :
    bval (init ++ [last]) = bval init * 256 + last.val := by
  simp [bval]

theorem bval_lt (bytes : List Byte) : bval bytes < 2 ^ (8 * bytes.length) := by
  induction bytes using List.reverseRecOn with
  | nil => simp [bval]
  | append_singleton init last ih =>
    rw [bval_concat, List.length_append, List.length_singleton, Nat.mul_add, Nat.pow_add]
    have := last.isLt
    have h : (2 : Nat) ^ (8 * 1) = 256 := by norm_num
    rw [h]
    calc bval init * 256 + last.val < bval init * 256 + 256 := by omega
      _ = (bval init + 1) * 256 := by ring
      _ ≤ 2 ^ (8 * init.length) * 256 := Nat.mul_le_mul_right _ ih

theorem two_pow_le_256 {r : Nat} (hr : r ≤ 8) : 2 ^ r ≤ 256 := by
  have : 2 ^ r ≤ 2 ^ 8 := Nat.pow_le_pow_right (by decide) hr
  simpa using this

theorem write_byte (last msb r t : Nat) (hr : r ≤ 8) (ht : t ≤ r) (hl : last < 256)
    (hlm : last % 2 ^ r = 0) (hm : msb < 2 ^ t) :
    (toByte (last ^^^ (toByte (u64 (msb <<< (r - t)))).val)).val = last + msb * 2 ^ (r - t) ∧
    (last + msb * 2 ^ (r - t)) % 2 ^ (r - t) = 0 := by
  have hpow : 2 ^ t * 2 ^ (r - t) = 2 ^ r := by
    rw [← Nat.pow_add]; congr 1; omega
  have hx : msb * 2 ^ (r - t) < 2 ^ r := by
    rw [← hpow]
    exact Nat.mul_lt_mul_of_pos_right hm (Nat.two_pow_pos _)
  have h256 := two_pow_le_256 hr
  have hdvd : 2 ^ (r - t) ∣ 2 ^ r := Nat.pow_dvd_pow 2 (by omega)
  have hldvd : 2 ^ r ∣ last := Nat.dvd_of_mod_eq_zero hlm
  have hsum : last + msb * 2 ^ (r - t) < 256 := by
    obtain ⟨q, rfl⟩ := hldvd
    have hq : q < 2 ^ (8 - r) := by
      have h8 : 2 ^ r * 2 ^ (8 - r) = 256 := by
        rw [← Nat.pow_add, show r + (8 - r) = 8 by omega]
      rw [← h8] at hl
      exact Nat.lt_of_mul_lt_mul_left hl
    have h8 : 2 ^ r * 2 ^ (8 - r) = 256 := by
      rw [← Nat.pow_add, show r + (8 - r) = 8 by omega]
    calc 2 ^ r * q + msb * 2 ^ (r - t) < 2 ^ r * q + 2 ^ r := by omega
      _ = 2 ^ r * (q + 1) := by ring
      _ ≤ 2 ^ r * 2 ^ (8 - r) := Nat.mul_le_mul_left _ hq
      _ = 256 := h8
  have hbyte : (toByte (u64 (msb <<< (r - t)))).val = msb * 2 ^ (r - t) := by
    simp only [toByte, u64, Nat.shiftLeft_eq]
    rw [Nat.mod_eq_of_lt (a := msb * 2 ^ (r - t)) (by omega), Nat.mod_eq_of_lt (by omega)]
  refine ⟨?_, ?_⟩
  · rw [hbyte]
    obtain ⟨q, rfl⟩ := hldvd
    rw [xor_eq_add_of_lt hx]
    simp only [toByte]
    exact Nat.mod_eq_of_lt hsum
  · apply Nat.mod_eq_zero_of_dvd
    exact Nat.dvd_add (Nat.dvd_trans hdvd hldvd) (Nat.dvd_mul_left _ _)

theorem writeMask_eq {k : Nat} (hk : k < 64) (w : Nat) :
    w &&& sub64 (u64 (1 <<< k)) 1 = w % 2 ^ k := by
  have hlt : 2 ^ k < 2 ^ 64 := Nat.pow_lt_pow_right (by decide) hk
  have hpos : 0 < 2 ^ k := Nat.two_pow_pos k
  have : sub64 (u64 (1 <<< k)) 1 = 2 ^ k - 1 := by
    simp only [sub64, u64, Nat.one_shiftLeft]
    rw [Nat.mod_eq_of_lt hlt]
    omega
  rw [this, Nat.and_pow_two_sub_one_eq_mod]

theorem writer_last_split (b : BitWriter) (hwf : b.WF) :
    ∃ (init : List Byte) (last : Byte),
      (if b.len % 8 = 0 then b.bytes ++ [(0x00 : Byte)] else b.bytes) = init ++ [last] ∧
      last.val % 2 ^ (8 - b.len % 8) = 0 ∧
      8 * (init.length + 1) = b.len + (8 - b.len % 8) ∧
      bval (init ++ [last]) = b.value * 2 ^ (8 - b.len % 8) := by
  obtain ⟨hlen, hlast⟩ := hwf
  by_cases hs : b.len % 8 = 0
  · refine ⟨b.bytes, 0, by rw [if_pos hs], by simp, by omega, ?_⟩
    have h0 : 8 * b.bytes.length - b.len = 0 := by omega
    rw [bval_concat, BitWriter.value, h0, hs]
    simp
  · rcases List.eq_nil_or_concat b.bytes with hnil | ⟨init, last, hcat⟩
    · rw [hnil] at hlen
      simp at hlen
      omega
    · rw [List.concat_eq_append] at hcat
      have hr : 8 * b.bytes.length - b.len = 8 - b.len % 8 := by omega
      rw [hr, hcat, List.getLastD_concat] at hlast
      have hlen2 : b.bytes.length = init.length + 1 := by rw [hcat]; simp
      refine ⟨init, last, by rw [if_neg hs, hcat], hlast, by omega, ?_⟩
      rw [BitWriter.value, hr, hcat]
      apply (Nat.div_mul_cancel _).symm
      rw [bval_concat]
      have h256 : 2 ^ (8 - b.len % 8) ∣ 256 := by
        have := Nat.pow_dvd_pow 2 (show 8 - b.len % 8 ≤ 8 by omega)
        simpa using this
      exact Nat.dvd_add (Nat.dvd_trans h256 (Nat.dvd_mul_left _ _))
        (Nat.dvd_of_mod_eq_zero hlast)

theorem writeLoop_step (fuel : Nat) (b : BitWriter) (w nb : Nat) (hwf : b.WF) (hnb : 0 < nb)
    (h64 : nb ≤ 64) (hw : w < 2 ^ nb) :
    ∃ b1 : BitWriter,
      writeLoop (fuel + 1) b w nb =
        writeLoop fuel b1 (w % 2 ^ (nb - min (8 - b.len % 8) nb))
          (nb - min (8 - b.len % 8) nb) ∧
      b1.WF ∧ b1.len = b.len + min (8 - b.len % 8) nb ∧
      b1.value = b.value * 2 ^ min (8 - b.len % 8) nb +
        w / 2 ^ (nb - min (8 - b.len % 8) nb) := by
  obtain ⟨init, last, hsplit, hlastmod, hlen8, hbval⟩ := writer_last_split b hwf
  generalize hr : 8 - b.len % 8 = r at *
  generalize ht : min r nb = t at *
  have hr8 : r ≤ 8 := by omega
  have htr : t ≤ r := by omega
  have ht1 : 1 ≤ t := by omega
  have htnb : t ≤ nb := by omega
  have hpow : 2 ^ (nb - t) * 2 ^ t = 2 ^ nb := by
    rw [← Nat.pow_add]; congr 1; omega
  have hmsb : w / 2 ^ (nb - t) < 2 ^ t := by
    apply Nat.div_lt_of_lt_mul
    rw [hpow]; exact hw
  obtain ⟨hbyte, hbytemod⟩ := write_byte last.val (w / 2 ^ (nb - t)) r t hr8 htr last.isLt
    hlastmod hmsb
  refine ⟨{ bytes := init ++ [toByte (last.val ^^^
      (toByte (u64 ((w >>> (nb - t)) <<< (r - t)))).val)], len := b.len + t }, ?_, ?_, rfl, ?_⟩
  · rw [writeLoop, if_neg (by omega)]
    simp only [hr, ht, hsplit, List.getLast?_concat, List.dropLast_concat]
    rw [writeMask_eq (by omega)]
  · constructor
    · simp only [List.length_append, List.length_singleton]
      omega
    · simp only [List.getLastD_concat, List.length_append, List.length_singleton]
      rw [Nat.shiftRight_eq_div_pow, hbyte]
      have : 8 * (init.length + 1) - (b.len + t) = r - t := by omega
      rw [this]
      exact hbytemod
  · simp only [BitWriter.value, List.length_append, List.length_singleton]
    have : 8 * (init.length + 1) - (b.len + t) = r - t := by omega
    rw [this, bval_concat, Nat.shiftRight_eq_div_pow, hbyte, ← Nat.add_assoc,
      ← bval_concat, hbval]
    have hrt : 2 ^ r = 2 ^ t * 2 ^ (r - t) := by
      rw [← Nat.pow_add]; congr 1; omega
    rw [hrt, ← Nat.mul_assoc, ← Nat.add_mul]
    exact Nat.mul_div_cancel _ (Nat.two_pow_pos _)

theorem writeLoop_fits :
    ∀ (fuel : Nat) (b : BitWriter) (w nb : Nat), b.WF → nb ≤ fuel → nb ≤ 64 → w < 2 ^ nb →
      ∃ b1 : BitWriter, writeLoop fuel b w nb = some b1 ∧ b1.WF ∧ b1.len = b.len + nb ∧
        b1.value = b.value * 2 ^ nb + w := by
  intro fuel
  induction fuel with
  | zero =>
    intro b w nb hwf hfuel _ hw
    have hnb : nb = 0 := by omega
    subst hnb
    have hw0 : w = 0 := by simpa using hw
    exact ⟨b, rfl, hwf, rfl, by simp [hw0]⟩
  | succ fuel ih =>
    intro b w nb hwf hfuel h64 hw
    by_cases hnb : nb = 0
    · subst hnb
      have hw0 : w = 0 := by simpa using hw
      exact ⟨b, by simp [writeLoop], hwf, rfl, by simp [hw0]⟩
    · obtain ⟨b1, heq, hwf1, hlen1, hval1⟩ :=
        writeLoop_step fuel b w nb hwf (by omega) h64 hw
      generalize ht : min (8 - b.len % 8) nb = t at *
      have ht1 : 1 ≤ t := by omega
      have htnb : t ≤ nb := by omega
      obtain ⟨b2, heq2, hwf2, hlen2, hval2⟩ := ih b1 (w % 2 ^ (nb - t)) (nb - t) hwf1
        (by omega) (by omega) (Nat.mod_lt _ (Nat.two_pow_pos _))
      refine ⟨b2, by rw [heq, heq2], hwf2, by omega, ?_⟩
      rw [hval2, hval1, Nat.add_mul, Nat.mul_assoc, ← Nat.pow_add,
        show t + (nb - t) = nb by omega, Nat.add_assoc]
      congr 1
      rw [Nat.mul_comm]
      exact Nat.div_add_mod w _

theorem WriteBits_fits (b : BitWriter) (w n : Nat) (hwf : b.WF) (h64 : n ≤ 64)
    (hw : w < 2 ^ n) :
    ∃ b1 : BitWriter, WriteBits b w (n : Int) = Outcome.ok b1 () ∧ b1.WF ∧
      b1.len = b.len + n ∧ b1.value = b.value * 2 ^ n + w := by
  obtain ⟨b1, heq, hwf1, hlen1, hval1⟩ := writeLoop_fits n b w n hwf (Nat.le_refl n) h64 hw
  refine ⟨b1, ?_, hwf1, hlen1, hval1⟩
  unfold WriteBits
  rw [if_neg (by omega), if_neg (by omega)]
  simp only [Int.toNat_ofNat]
  rw [if_neg, heq]
  rintro ⟨hn, hge⟩
  have hn63 : n < 63 := by omega
  have : u64 (1 <<< n) = 2 ^ n := by
    rw [u64, Nat.one_shiftLeft]
    exact Nat.mod_eq_of_lt (Nat.pow_lt_pow_right (by decide) (by omega))
  rw [this] at hge
  omega

/-! ## Lemmas on `ReadBits` -/

theorem bval_getElem? : ∀ (bytes : List Byte) (i : Nat) (c : Byte), bytes[i]? = some c →
    c.val = bval bytes / 2 ^ (8 * (bytes.length - 1 - i)) % 256 := by
  intro bytes
  induction bytes using List.reverseRecOn with
  | nil => intro i c h; simp at h
  | append_singleton init last ih =>
    intro i c h
    rw [bval_concat, List.length_append, List.length_singleton]
    by_cases hi : i < init.length
    · rw [List.getElem?_append_left hi] at h
      have := ih i c h
      rw [this]
      have hexp : 8 * (init.length + 1 - 1 - i) = 8 + 8 * (init.length - 1 - i) := by omega
      rw [hexp, Nat.pow_add, ← Nat.div_div_eq_div_mul]
      have h256 : (2 : Nat) ^ 8 = 256 := by norm_num
      rw [h256, Nat.mul_comm (bval init) 256, Nat.mul_add_div (by decide),
        Nat.div_eq_of_lt last.isLt, Nat.add_zero]
    · have hlen : i = init.length := by
        by_contra hne
        have : (init ++ [last])[i]? = none := by
          apply List.getElem?_eq_none
          simp; omega
        rw [this] at h
        simp at h
      subst hlen
      rw [List.getElem?_append_right (Nat.le_refl _)] at h
      simp at h
      subst h
      have hexp : 8 * (init.length + 1 - 1 - init.length) = 0 := by omega
      rw [hexp, Nat.pow_zero, Nat.div_one, Nat.mul_comm (bval init) 256, Nat.mul_add_mod,
        Nat.mod_eq_of_lt last.isLt]

theorem fieldAt_lt (bytes : List Byte) (o n : Nat) : fieldAt bytes o n < 2 ^ n :=
  Nat.mod_lt _ (Nat.two_pow_pos n)

theorem fieldAt_append (bytes : List Byte) (o t n : Nat) (h : o + t + n ≤ 8 * bytes.length) :
    fieldAt bytes o t * 2 ^ n + fieldAt bytes (o + t) n = fieldAt bytes o (t + n) := by
  simp only [fieldAt]
  have h1 : 8 * bytes.length - (o + t) = (8 * bytes.length - (o + (t + n))) + n := by omega
  have h2 : 8 * bytes.length - (o + t + n) = 8 * bytes.length - (o + (t + n)) := by omega
  rw [h1, h2, Nat.pow_add, ← Nat.div_div_eq_div_mul]
  generalize bval bytes / 2 ^ (8 * bytes.length - (o + (t + n))) = x
  rw [Nat.pow_add, Nat.mul_comm (2 ^ t) (2 ^ n), Nat.mod_mul (x := x)]
  rw [Nat.mul_comm, Nat.add_comm]

theorem read_byte_field (bytes : List Byte) (o t : Nat) (c : Byte)
    (hc : bytes[o / 8]? = some c) (ht : t ≤ 8 - o % 8) (ho : o < 8 * bytes.length) :
    (c.val &&& sub8 (u8 (1 <<< (8 - o % 8))) 1) >>> (8 - o % 8 - t) = fieldAt bytes o t := by
  rw [byteMask_eq (by omega), Nat.and_pow_two_sub_one_eq_mod, Nat.shiftRight_eq_div_pow,
    bval_getElem? bytes _ c hc, fieldAt]
  generalize hs : 8 - o % 8 = s at *
  have hs8 : s ≤ 8 := by omega
  have hexp : 8 * bytes.length - (o + t) = 8 * (bytes.length - 1 - o / 8) + (s - t) := by omega
  rw [hexp, Nat.pow_add, ← Nat.div_div_eq_div_mul]
  generalize bval bytes / 2 ^ (8 * (bytes.length - 1 - o / 8)) = x
  have h256 : (256 : Nat) = 2 ^ 8 := by norm_num
  rw [h256, Nat.mod_mod_of_dvd x (Nat.pow_dvd_pow 2 hs8)]
  have hst : 2 ^ s = 2 ^ (s - t) * 2 ^ t := by
    rw [← Nat.pow_add]; congr 1; omega
  rw [hst, Nat.mod_mul_right_div_self]

theorem readLoop_spec :
    ∀ (fuel : Nat) (b : BitReader) (w nb k : Nat), nb ≤ fuel → w < 2 ^ k → k + nb ≤ 64 →
      b.offset + nb ≤ 8 * b.bytes.length →
      readLoop fuel b w nb =
        some ({ b with offset := b.offset + nb }, w * 2 ^ nb + fieldAt b.bytes b.offset nb) := by
  intro fuel
  induction fuel with
  | zero =>
    intro b w nb k hfuel _ _ _
    have : nb = 0 := by omega
    subst this
    simp [readLoop, fieldAt, Nat.mod_one]
  | succ fuel ih =>
    intro b w nb k hfuel hw hk hlen
    by_cases hnb : nb = 0
    · subst hnb
      simp [readLoop, fieldAt, Nat.mod_one]
    · rw [readLoop, if_neg hnb]
      have hidx : b.offset / 8 < b.bytes.length := by omega
      obtain ⟨c, hc⟩ : ∃ c, b.bytes[b.offset / 8]? = some c :=
        ⟨b.bytes[b.offset / 8], List.getElem?_eq_getElem hidx⟩
      rw [hc]
      simp only
      generalize ht : min (8 - b.offset % 8) nb = t at *
      have ht1 : 1 ≤ t := by omega
      have htnb : t ≤ nb := by omega
      have hts : t ≤ 8 - b.offset % 8 := by omega
      rw [read_byte_field b.bytes b.offset t c hc hts (by omega)]
      have hwt : w * 2 ^ t < 2 ^ 64 := by
        calc w * 2 ^ t < 2 ^ k * 2 ^ t := Nat.mul_lt_mul_of_pos_right hw (Nat.two_pow_pos _)
          _ = 2 ^ (k + t) := (Nat.pow_add 2 k t).symm
          _ ≤ 2 ^ 64 := Nat.pow_le_pow_right (by decide) (by omega)
      have hor : u64 (w <<< t) ||| fieldAt b.bytes b.offset t =
          w * 2 ^ t + fieldAt b.bytes b.offset t := by
        rw [u64, Nat.shiftLeft_eq, Nat.mod_eq_of_lt hwt, Nat.mul_comm w,
          Nat.mul_add_lt_is_or (fieldAt_lt _ _ _)]
      rw [hor]
      have hlt : w * 2 ^ t + fieldAt b.bytes b.offset t < 2 ^ (k + t) := by
        have := fieldAt_lt b.bytes b.offset t
        calc w * 2 ^ t + fieldAt b.bytes b.offset t < w * 2 ^ t + 2 ^ t := by omega
          _ = (w + 1) * 2 ^ t := by ring
          _ ≤ 2 ^ k * 2 ^ t := Nat.mul_le_mul_right _ hw
          _ = 2 ^ (k + t) := (Nat.pow_add 2 k t).symm
      rw [ih { b with offset := b.offset + t } _ (nb - t) (k + t) (by omega) hlt (by omega)
        (by simp only; omega)]
      simp only
      have hnbt : nb = t + (nb - t) := by omega
      congr 2
      · congr 1; omega
      · rw [Nat.add_mul, Nat.mul_assoc, ← Nat.pow_add, ← hnbt, Nat.add_assoc,
          fieldAt_append b.bytes b.offset t (nb - t) (by omega), ← hnbt]

theorem ReadBits_spec (b : BitReader) (n : Nat) (h64 : n ≤ 64)
    (hlen : (b.offset : Int) + n ≤ b.len) (hbuf : b.len ≤ 8 * b.bytes.length) :
    ReadBits b (n : Int) =
      Outcome.ok { b with offset := b.offset + n } (fieldAt b.bytes b.offset n) := by
  unfold ReadBits
  rw [if_neg (by omega), if_neg (by omega)]
  simp only [Int.toNat_ofNat]
  rw [readLoop_spec n b 0 n 0 (Nat.le_refl n) (by simp) (by omega) (by omega)]
  simp

/-! ## Lemmas on `Pad`, `ToBytes` and the bits of a writer -/

theorem Pad_spec (b : BitWriter) (hwf : b.WF) :
    ∃ b1 : BitWriter, Pad b = some b1 ∧ b1.WF ∧ b1.len = b.len + (8 - b.len % 8) ∧
      b1.value = b.value * 2 ^ (8 - b.len % 8) + 2 ^ (8 - b.len % 8 - 1) := by
  have hk : 8 - b.len % 8 - 1 < 8 - b.len % 8 := by omega
  have hw : u64 (1 <<< (8 - b.len % 8 - 1)) = 2 ^ (8 - b.len % 8 - 1) := by
    rw [u64, Nat.one_shiftLeft]
    exact Nat.mod_eq_of_lt (Nat.pow_lt_pow_right (by decide) (by omega))
  obtain ⟨b1, heq, hwf1, hlen1, hval1⟩ := WriteBits_fits b (2 ^ (8 - b.len % 8 - 1))
    (8 - b.len % 8) hwf (by omega) (Nat.pow_lt_pow_right (by decide) hk)
  refine ⟨b1, ?_, hwf1, hlen1, hval1⟩
  simp only [Pad, hw, heq]

theorem Pad_aligned (b : BitWriter) (hs : b.len % 8 = 0) :
    Pad b = some { bytes := b.bytes ++ [(0x80 : Byte)], len := b.len + 8 } := by
  have h8 : 8 - b.len % 8 = 8 := by omega
  have hw : u64 (1 <<< (8 - 1)) = 128 := by decide
  have hloop : writeLoop 8 b 128 8 =
      some { bytes := b.bytes ++ [(0x80 : Byte)], len := b.len + 8 } := by
    rw [writeLoop, if_neg (by decide)]
    simp only [hs, if_true, List.getLast?_concat, List.dropLast_concat, Nat.sub_zero,
      Nat.min_self, Nat.sub_self]
    rw [writeLoop, if_pos rfl]
    rfl
  unfold Pad
  simp only [h8, hw]
  unfold WriteBits
  rw [if_neg (by decide), if_neg (by decide), if_neg (by decide)]
  simp only [Int.toNat_ofNat, hloop]

theorem ToBytes_aligned (b : BitWriter) (hwf : b.WF) (hs : b.len % 8 = 0) :
    ToBytes b = Outcome.ok b b.bytes := by
  have hlen := hwf.1
  unfold ToBytes
  rw [if_pos hs, if_pos (by omega), List.take_of_length_le (by omega)]

theorem testBit_bval : ∀ (bytes : List Byte) (j : Nat), j < 8 * bytes.length →
    (bval bytes).testBit (8 * bytes.length - 1 - j) = bitAt bytes j := by
  intro bytes
  induction bytes using List.reverseRecOn with
  | nil => intro j hj; simp at hj
  | append_singleton init last ih =>
    intro j hj
    rw [List.length_append, List.length_singleton] at hj ⊢
    have hb : bval (init ++ [last]) = 2 ^ 8 * bval init + last.val := by
      rw [bval_concat]; ring
    have hlast : last.val < 2 ^ 8 := last.isLt
    rw [hb, Nat.testBit_mul_pow_two_add _ hlast]
    by_cases hlow : j < 8 * init.length
    · rw [if_neg (by omega)]
      have : 8 * (init.length + 1) - 1 - j - 8 = 8 * init.length - 1 - j := by omega
      rw [this, ih j hlow]
      simp only [bitAt]
      rw [List.getD_append _ _ _ _ (by omega)]
    · rw [if_pos (by omega)]
      simp only [bitAt]
      rw [List.getD_append_right _ _ _ _ (by omega)]
      have h1 : j / 8 - init.length = 0 := by omega
      have h2 : 8 * (init.length + 1) - 1 - j = 7 - j % 8 := by omega
      rw [h1, h2]
      simp

theorem bits_eq_lowBits (b : BitWriter) (hwf : b.WF) : b.bits = lowBits b.value b.len := by
  have hlen := hwf.1
  simp only [BitWriter.bits, lowBits]
  apply List.map_congr_left
  intro j hj
  rw [List.mem_range] at hj
  rw [BitWriter.value, ← Nat.shiftRight_eq_div_pow, Nat.testBit_shiftRight,
    ← testBit_bval b.bytes j (by omega)]
  congr 1
  omega

theorem lowBits_append (v x n k : Nat) (hx : x < 2 ^ k) :
    lowBits (v * 2 ^ k + x) (n + k) = lowBits v n ++ lowBits x k := by
  simp only [lowBits]
  rw [List.range_add, List.map_append, List.map_map]
  congr 1
  · apply List.map_congr_left
    intro i hi
    rw [List.mem_range] at hi
    rw [Nat.mul_comm, Nat.testBit_mul_pow_two_add _ hx, if_neg (by omega)]
    congr 1
    omega
  · apply List.map_congr_left
    intro i hi
    rw [List.mem_range] at hi
    simp only [Function.comp]
    rw [Nat.mul_comm, Nat.testBit_mul_pow_two_add _ hx, if_pos (by omega)]
    congr 1
    omega

theorem lowBits_marker (k : Nat) (h1 : 1 ≤ k) (h8 : k ≤ 8) :
    lowBits (2 ^ (k - 1)) k = true :: List.replicate (k - 1) false := by
  unfold lowBits
  interval_cases k <;> decide

/-! ## Lemmas on `Unpad` -/

theorem unpadLoop_skip (b : BitReader) (lastByte : Byte) (n : Nat) :
    ∀ (k i : Nat),
      (∀ j, i ≤ j → j < i + k →
        lastByte.val &&& sub8 (u8 (1 <<< (j + 1))) 1 ≠ u8 (1 <<< j)) →
      unpadLoop b lastByte (k + n) i = unpadLoop b lastByte n (i + k) := by
  intro k
  induction k with
  | zero => intro i _; simp
  | succ k ih =>
    intro i h
    rw [show k + 1 + n = (k + n) + 1 by omega, unpadLoop, if_neg (h i (Nat.le_refl i) (by omega))]
    rw [ih (i + 1) (fun j h1 h2 => h j (by omega) (by omega))]
    congr 1
    omega

theorem Unpad_snoc (init : List Byte) (last : Byte) (offset : Nat) (len : Int) :
    Unpad { bytes := init ++ [last], offset := offset, len := len } =
      unpadLoop { bytes := init ++ [last], offset := offset, len := len } last 8 0 := by
  simp [Unpad]

theorem Unpad_of_mod (init : List Byte) (last : Byte) (offset : Nat) (len : Int) (i : Nat)
    (hi : i < 8) (hmod : last.val % 2 ^ (i + 1) = 2 ^ i) :
    Unpad { bytes := init ++ [last], offset := offset, len := len } =
      Outcome.ok
        { bytes := if i + 1 = 8 then init else init ++ [last]
          offset := offset
          len := len - ((i : Int) + 1) } () := by
  rw [Unpad_snoc]
  have hskip := unpadLoop_skip { bytes := init ++ [last], offset := offset, len := len }
    last (8 - i) i 0 (by
      intro j _ hj
      rw [byteMask_eq (by omega), u8_one_shiftLeft (by omega),
        Nat.and_pow_two_sub_one_eq_mod]
      have hdvd : 2 ^ (j + 1) ∣ 2 ^ (i + 1) := Nat.pow_dvd_pow 2 (by omega)
      have hdvd2 : 2 ^ (j + 1) ∣ 2 ^ i := Nat.pow_dvd_pow 2 (by omega)
      rw [← Nat.mod_mod_of_dvd _ hdvd, hmod, Nat.mod_eq_zero_of_dvd hdvd2]
      exact Nat.ne_of_lt (Nat.two_pow_pos j))
  rw [show i + (8 - i) = 8 by omega, Nat.zero_add] at hskip
  rw [hskip]
  obtain ⟨m, hm⟩ : ∃ m, 8 - i = m + 1 := ⟨8 - i - 1, by omega⟩
  rw [hm, unpadLoop, if_pos (by
    rw [byteMask_eq (by omega), u8_one_shiftLeft hi, Nat.and_pow_two_sub_one_eq_mod]
    exact hmod)]
  simp

theorem Unpad_zero (init : List Byte) (last : Byte) (offset : Nat) (len : Int)
    (hz : last.val = 0) :
    Unpad { bytes := init ++ [last], offset := offset, len := len } =
      Outcome.error { bytes := init ++ [last], offset := offset, len := len }
        Err.noPadding := by
  rw [Unpad_snoc]
  have hskip := unpadLoop_skip { bytes := init ++ [last], offset := offset, len := len }
    last 0 8 0 (by
      intro j _ hj
      rw [byteMask_eq (by omega), u8_one_shiftLeft (by omega), hz, Nat.zero_and]
      exact Nat.ne_of_lt (Nat.two_pow_pos j))
  rw [Nat.add_zero] at hskip
  rw [hskip]
  rfl

/-! ## Lemmas on sequences of writes and reads -/

theorem packValue_lt : ∀ (l : List (Nat × Nat)), (∀ p ∈ l, p.2 ≤ 64 ∧ p.1 < 2 ^ p.2) →
    packValue l < 2 ^ packWidth l := by
  intro l
  induction l with
  | nil => intro _; simp [packValue, packWidth]
  | cons p rest ih =>
    intro h
    obtain ⟨v, n⟩ := p
    have hv : v < 2 ^ n := (h (v, n) (List.mem_cons_self _ _)).2
    have hrest := ih (fun q hq => h q (List.mem_cons_of_mem _ hq))
    simp only [packValue, packWidth]
    calc v * 2 ^ packWidth rest + packValue rest
        < v * 2 ^ packWidth rest + 2 ^ packWidth rest := by omega
      _ = (v + 1) * 2 ^ packWidth rest := by ring
      _ ≤ 2 ^ n * 2 ^ packWidth rest := Nat.mul_le_mul_right _ hv
      _ = 2 ^ (n + packWidth rest) := (Nat.pow_add 2 _ _).symm

theorem writeAll_spec : ∀ (l : List (Nat × Nat)) (b : BitWriter), b.WF →
    (∀ p ∈ l, p.2 ≤ 64 ∧ p.1 < 2 ^ p.2) →
    ∃ b1 : BitWriter, writeAll b l = some b1 ∧ b1.WF ∧ b1.len = b.len + packWidth l ∧
      b1.value = b.value * 2 ^ packWidth l + packValue l := by
  intro l
  induction l with
  | nil => intro b hwf _; exact ⟨b, rfl, hwf, rfl, by simp [packValue, packWidth]⟩
  | cons p rest ih =>
    intro b hwf h
    obtain ⟨v, n⟩ := p
    obtain ⟨hn, hv⟩ := h (v, n) (List.mem_cons_self _ _)
    obtain ⟨b1, heq1, hwf1, hlen1, hval1⟩ := WriteBits_fits b v n hwf hn hv
    obtain ⟨b2, heq2, hwf2, hlen2, hval2⟩ :=
      ih b1 hwf1 (fun q hq => h q (List.mem_cons_of_mem _ hq))
    refine ⟨b2, by simp only [writeAll, heq1, heq2], hwf2, ?_, ?_⟩
    · simp only [packWidth]; omega
    · simp only [packValue, packWidth]
      rw [hval2, hval1, Nat.pow_add]
      ring

theorem readAll_spec : ∀ (l : List (Nat × Nat)) (rd : BitReader),
    (∀ p ∈ l, p.2 ≤ 64 ∧ p.1 < 2 ^ p.2) →
    (rd.offset : Int) + packWidth l ≤ rd.len → rd.len ≤ 8 * rd.bytes.length →
    fieldAt rd.bytes rd.offset (packWidth l) = packValue l →
    readAll rd (l.map Prod.snd) =
      some ({ rd with offset := rd.offset + packWidth l }, l.map Prod.fst) := by
  intro l
  induction l with
  | nil => intro rd _ _ _ _; simp [readAll, packWidth]
  | cons p rest ih =>
    intro rd h hlen hbuf hfield
    obtain ⟨v, n⟩ := p
    obtain ⟨hn, hv⟩ := h (v, n) (List.mem_cons_self _ _)
    have hrest : ∀ q ∈ rest, q.2 ≤ 64 ∧ q.1 < 2 ^ q.2 :=
      fun q hq => h q (List.mem_cons_of_mem _ hq)
    simp only [packWidth, packValue] at hlen hfield
    have hsplit := fieldAt_append rd.bytes rd.offset n (packWidth rest) (by omega)
    rw [hfield] at hsplit
    have hlt1 := fieldAt_lt rd.bytes (rd.offset + n) (packWidth rest)
    have hlt2 := packValue_lt rest hrest
    have hpos : 0 < 2 ^ packWidth rest := Nat.two_pow_pos _
    have hv_eq : fieldAt rd.bytes rd.offset n = v := by
      have h1 := congrArg (· / 2 ^ packWidth rest) hsplit
      simp only at h1
      rw [Nat.mul_comm, Nat.mul_add_div hpos, Nat.div_eq_of_lt hlt1, Nat.mul_comm v,
        Nat.mul_add_div hpos, Nat.div_eq_of_lt hlt2] at h1
      simpa using h1
    have hrest_eq : fieldAt rd.bytes (rd.offset + n) (packWidth rest) = packValue rest := by
      rw [hv_eq] at hsplit
      omega
    have hread := ReadBits_spec rd n hn (by omega) hbuf
    have hih := ih { rd with offset := rd.offset + n } hrest
      (by simp only; push_cast; omega) hbuf hrest_eq
    simp only [List.map_cons, readAll, hread, hih, hv_eq, packWidth, Nat.add_assoc]

/-! ## The representation invariant is kept by every write -/

theorem xor_mod_two_pow_eq_zero {a b m : Nat} (ha : a % 2 ^ m = 0) (hb : b % 2 ^ m = 0) :
    (a ^^^ b) % 2 ^ m = 0 := by
  apply Nat.eq_of_testBit_eq
  intro j
  have h1 := congrArg (fun x => x.testBit j) ha
  have h2 := congrArg (fun x => x.testBit j) hb
  simp only [Nat.testBit_mod_two_pow, Nat.zero_testBit] at h1 h2
  rw [Nat.testBit_mod_two_pow, Nat.zero_testBit, Nat.testBit_xor]
  by_cases hj : j < m
  · simp only [hj, decide_True, Bool.true_and] at h1 h2 ⊢
    rw [h1, h2]
    rfl
  · simp [hj]

theorem writeLoop_WF :
    ∀ (fuel : Nat) (b : BitWriter) (w nb : Nat), b.WF →
      ∀ b1, writeLoop fuel b w nb = some b1 → b1.WF := by
  intro fuel
  induction fuel with
  | zero =>
    intro b w nb hwf b1 h
    simp only [writeLoop, Option.some.injEq] at h
    exact h ▸ hwf
  | succ fuel ih =>
    intro b w nb hwf b1 h
    by_cases hnb : nb = 0
    · rw [writeLoop, if_pos hnb] at h
      simp only [Option.some.injEq] at h
      exact h ▸ hwf
    · obtain ⟨init, last, hsplit, hlastmod, hlen8, _⟩ := writer_last_split b hwf
      rw [writeLoop, if_neg hnb] at h
      simp only [hsplit, List.getLast?_concat, List.dropLast_concat] at h
      refine ih _ _ _ ?_ b1 h
      generalize hr : 8 - b.len % 8 = r at *
      generalize ht : min r nb = t at *
      have hr8 : r ≤ 8 := by omega
      have htr : t ≤ r := by omega
      have ht1 : 1 ≤ t := by omega
      constructor
      · simp only [List.length_append, List.length_singleton]
        omega
      · simp only [List.getLastD_concat, List.length_append, List.length_singleton]
        have hexp : 8 * (init.length + 1) - (b.len + t) = r - t := by omega
        rw [hexp]
        have hd256 : 2 ^ (r - t) ∣ 2 ^ 8 := Nat.pow_dvd_pow 2 (by omega)
        have hd64 : 2 ^ (r - t) ∣ 2 ^ 64 := Nat.pow_dvd_pow 2 (by omega)
        have hdr : 2 ^ (r - t) ∣ 2 ^ r := Nat.pow_dvd_pow 2 (by omega)
        have h256 : (256 : Nat) = 2 ^ 8 := by norm_num
        simp only [toByte, u64, h256]
        rw [Nat.mod_mod_of_dvd _ hd256]
        apply xor_mod_two_pow_eq_zero
        · rw [← Nat.mod_mod_of_dvd _ hdr, hlastmod, Nat.zero_mod]
        · rw [Nat.mod_mod_of_dvd _ hd256, Nat.mod_mod_of_dvd _ hd64, Nat.shiftLeft_eq]
          exact Nat.mul_mod_left _ _

theorem NewWriter_WF : NewWriter.WF := by decide

theorem WriteBits_WF (b : BitWriter) (w : Nat) (nb : Int) (hwf : b.WF) (b1 : BitWriter)
    (h : WriteBits b w nb = Outcome.ok b1 ()) : b1.WF := by
  unfold WriteBits at h
  split at h
  · exact absurd h (by simp)
  · split at h
    · exact absurd h (by simp)
    · split at h
      · exact absurd h (by simp)
      · split at h
        · rename_i b2 heq
          simp only [Outcome.ok.injEq, and_true] at h
          exact h ▸ writeLoop_WF _ _ _ _ hwf b2 heq
        · exact absurd h (by simp)

theorem Pad_WF (b : BitWriter) (hwf : b.WF) (b1 : BitWriter) (h : Pad b = some b1) :
    b1.WF := by
  obtain ⟨b2, hp, hwf2, _, _⟩ := Pad_spec b hwf
  rw [hp] at h
  simp only [Option.some.injEq] at h
  exact h ▸ hwf2

/-! ## The fuel of the loops of `WriteBits` and `ReadBits` is enough -/

theorem writeLoop_fuel :
    ∀ (fuel1 fuel2 : Nat) (b : BitWriter) (w nb : Nat), nb ≤ fuel1 → nb ≤ fuel2 →
      writeLoop fuel1 b w nb = writeLoop fuel2 b w nb := by
  intro fuel1
  induction fuel1 with
  | zero =>
    intro fuel2 b w nb h1 _
    have : nb = 0 := by omega
    subst this
    cases fuel2 <;> simp [writeLoop]
  | succ fuel1 ih =>
    intro fuel2 b w nb h1 h2
    by_cases hnb : nb = 0
    · subst hnb
      cases fuel2 <;> simp [writeLoop]
    · obtain ⟨fuel2, rfl⟩ : ∃ f, fuel2 = f + 1 := ⟨fuel2 - 1, by omega⟩
      rw [writeLoop, writeLoop, if_neg hnb, if_neg hnb]
      simp only
      split
      · rfl
      · exact ih fuel2 _ _ _ (by omega) (by omega)

theorem readLoop_fuel :
    ∀ (fuel1 fuel2 : Nat) (b : BitReader) (w nb : Nat), nb ≤ fuel1 → nb ≤ fuel2 →
      readLoop fuel1 b w nb = readLoop fuel2 b w nb := by
  intro fuel1
  induction fuel1 with
  | zero =>
    intro fuel2 b w nb h1 _
    have : nb = 0 := by omega
    subst this
    cases fuel2 <;> simp [readLoop]
  | succ fuel1 ih =>
    intro fuel2 b w nb h1 h2
    by_cases hnb : nb = 0
    · subst hnb
      cases fuel2 <;> simp [readLoop]
    · obtain ⟨fuel2, rfl⟩ : ∃ f, fuel2 = f + 1 := ⟨fuel2 - 1, by omega⟩
      rw [readLoop, readLoop, if_neg hnb, if_neg hnb]
      split
      · rfl
      · exact ih fuel2 _ _ _ (by omega) (by omega)

/-! ## The value returned by `ReadBits` in terms of bits -/

theorem bitsValue_foldl (bits : List Bool) : ∀ acc : Nat,
    bits.foldl (fun a c => 2 * a + c.toNat) acc = acc * 2 ^ bits.length + bitsValue bits := by
  induction bits with
  | nil => intro acc; simp [bitsValue]
  | cons c rest ih =>
    intro acc
    simp only [bitsValue, List.foldl_cons, List.length_cons]
    rw [ih (2 * acc + c.toNat), ih (2 * 0 + c.toNat)]
    ring

theorem bitsValue_cons (c : Bool) (rest : List Bool) :
    bitsValue (c :: rest) = c.toNat * 2 ^ rest.length + bitsValue rest := by
  simp only [bitsValue, List.foldl_cons]
  rw [bitsValue_foldl rest (2 * 0 + c.toNat)]
  simp [bitsValue]

theorem lowBits_succ (v n : Nat) : lowBits v (n + 1) = v.testBit n :: lowBits v n := by
  simp only [lowBits, List.range_succ_eq_map, List.map_cons, List.map_map]
  congr 1
  apply List.map_congr_left
  intro k _
  simp only [Function.comp]
  congr 1
  omega

theorem lowBits_length (v n : Nat) : (lowBits v n).length = n := by
  simp [lowBits]

theorem bitsValue_lowBits (v : Nat) : ∀ n, bitsValue (lowBits v n) = v % 2 ^ n := by
  intro n
  induction n with
  | zero => simp [lowBits, bitsValue, Nat.mod_one]
  | succ n ih =>
    rw [lowBits_succ, bitsValue_cons, ih, lowBits_length, Nat.mod_pow_succ,
      Nat.testBit_to_div_mod]
    by_cases h : v / 2 ^ n % 2 = 1
    · simp [h]; ring
    · have h0 : v / 2 ^ n % 2 = 0 := by omega
      simp [h0]

theorem lowBits_fieldAt (bytes : List Byte) (o n : Nat) (h : o + n ≤ 8 * bytes.length) :
    lowBits (fieldAt bytes o n) n = bitsFrom bytes o n := by
  simp only [lowBits, bitsFrom]
  apply List.map_congr_left
  intro k hk
  rw [List.mem_range] at hk
  rw [fieldAt, Nat.testBit_mod_two_pow, ← Nat.shiftRight_eq_div_pow, Nat.testBit_shiftRight,
    ← testBit_bval bytes (o + k) (by omega)]
  have hlt : n - 1 - k < n := by omega
  simp only [hlt, decide_True, Bool.true_and]
  congr 1
  omega

theorem fieldAt_eq_bitsValue (bytes : List Byte) (o n : Nat) (h : o + n ≤ 8 * bytes.length) :
    fieldAt bytes o n = bitsValue (bitsFrom bytes o n) := by
  rw [← lowBits_fieldAt bytes o n h, bitsValue_lowBits,
    Nat.mod_eq_of_lt (fieldAt_lt bytes o n)]

theorem unpadLoop_ne_panic (b : BitReader) (lastByte : Byte) :
    ∀ (n i : Nat), unpadLoop b lastByte n i ≠ Outcome.panic := by
  intro n
  induction n with
  | zero => intro i; simp [unpadLoop]
  | succ n ih =>
    intro i
    rw [unpadLoop]
    split
    · simp
    · exact ih (i + 1)

/-! ## Theorems on the package `bits_io` -/

/-- C6: bit stream round trip. For every list of pairs `(value, width)` with `width <= 64` and
`value < 2^width`: writing them in order on a new writer returns normally each time, `Pad` and
`ToBytes` succeed, `Unpad` on a reader over the bytes succeeds, reading the widths back in order
returns normally each time and yields the values, and no bit remains in the reader. -/
theorem C6_bitstream_roundtrip (l : List (Nat × Nat))
    (h : ∀ p ∈ l, p.2 ≤ 64 ∧ p.1 < 2 ^ p.2) :
    ∃ (bw bp : BitWriter) (bs : List Byte) (rd rd1 : BitReader),
      writeAll NewWriter l = some bw ∧ Pad bw = some bp ∧ ToBytes bp = Outcome.ok bp bs ∧
      Unpad (NewReader bs) = Outcome.ok rd () ∧
      readAll rd (l.map Prod.snd) = some (rd1, l.map Prod.fst) ∧ rd1.Len = 0 := by
  have hwf0 : NewWriter.WF := by decide
  obtain ⟨bw, hw, hwfw, hlenw, hvalw⟩ := writeAll_spec l NewWriter hwf0 h
  have hlen0 : NewWriter.len = 0 := rfl
  have hval0 : NewWriter.value = 0 := by decide
  rw [hlen0, Nat.zero_add] at hlenw
  rw [hval0, Nat.zero_mul, Nat.zero_add] at hvalw
  obtain ⟨bp, hp, hwfp, hlenp, hvalp⟩ := Pad_spec bw hwfw
  generalize hk : 8 - bw.len % 8 = k at *
  have hk1 : 1 ≤ k := by omega
  have hk8 : k ≤ 8 := by omega
  have hal : bp.len % 8 = 0 := by omega
  have htb := ToBytes_aligned bp hwfp hal
  have hN : 8 * bp.bytes.length = bp.len := by have := hwfp.1; omega
  have hbval : bval bp.bytes = packValue l * 2 ^ k + 2 ^ (k - 1) := by
    rw [← hvalw, ← hvalp, BitWriter.value, hN]
    simp
  have hVlt : packValue l < 2 ^ packWidth l := packValue_lt l h
  have hmark : 2 ^ (k - 1) < 2 ^ k := Nat.pow_lt_pow_right (by decide) (by omega)
  rcases List.eq_nil_or_concat bp.bytes with hnil | ⟨init, last, hcat⟩
  · rw [hnil] at hN
    simp at hN
    omega
  · rw [List.concat_eq_append] at hcat
    rw [hcat, bval_concat] at hbval
    rw [hcat, List.length_append, List.length_singleton] at hN
    have h256 : 2 ^ k ∣ 256 := by
      have := Nat.pow_dvd_pow 2 hk8
      simpa using this
    have hlast : last.val % 2 ^ (k - 1 + 1) = 2 ^ (k - 1) := by
      rw [show k - 1 + 1 = k by omega]
      have h1 : (bval init * 256 + last.val) % 2 ^ k = last.val % 2 ^ k := by
        have hd : 2 ^ k ∣ bval init * 256 := Dvd.dvd.mul_left h256 _
        rw [Nat.add_mod, Nat.mod_eq_zero_of_dvd hd, Nat.zero_add, Nat.mod_mod]
      rw [← h1, hbval, Nat.add_comm, Nat.add_mul_mod_self_right, Nat.mod_eq_of_lt hmark]
    have hun := Unpad_of_mod init last 0 ((init ++ [last]).length * 8 : Int) (k - 1)
      (by omega) hlast
    have hfield : fieldAt (if k - 1 + 1 = 8 then init else init ++ [last]) 0 (packWidth l) =
        packValue l := by
      by_cases hk88 : k - 1 + 1 = 8
      · rw [if_pos hk88, fieldAt]
        have hk8' : k = 8 := by omega
        subst hk8'
        have hinit : bval init = packValue l := by
          have := last.isLt
          norm_num at hbval
          omega
        rw [hinit, show 8 * init.length - (0 + packWidth l) = 0 by omega, Nat.pow_zero,
          Nat.div_one, Nat.mod_eq_of_lt hVlt]
      · rw [if_neg hk88, fieldAt, bval_concat, hbval, List.length_append,
          List.length_singleton, show 8 * (init.length + 1) - (0 + packWidth l) = k by omega,
          Nat.mul_comm, Nat.mul_add_div (Nat.two_pow_pos k), Nat.div_eq_of_lt hmark,
          Nat.add_zero, Nat.mod_eq_of_lt hVlt]
    have hread := readAll_spec l
      { bytes := if k - 1 + 1 = 8 then init else init ++ [last], offset := 0,
        len := ((init ++ [last]).length * 8 : Int) - (((k - 1 : Nat) : Int) + 1) } h
      (by simp only [List.length_append, List.length_singleton]; push_cast; omega)
      (by
        by_cases hk88 : k - 1 + 1 = 8
        · simp only [if_pos hk88, List.length_append, List.length_singleton]
          push_cast
          omega
        · simp only [if_neg hk88, List.length_append, List.length_singleton]
          push_cast
          omega)
      hfield
    refine ⟨bw, bp, bp.bytes, _, _, hw, hp, htb, ?_, hread, ?_⟩
    · rw [hcat]
      exact hun
    · simp only [BitReader.Len, List.length_append, List.length_singleton]
      push_cast
      omega

/-- Witness for C6: four fields of widths 3, 10, 0 and 64. -/
theorem C6_bitstream_roundtrip_witness :
    ∃ (bw bp : BitWriter) (bs : List Byte) (rd rd1 : BitReader),
      writeAll NewWriter [(5, 3), (1000, 10), (0, 0), (2 ^ 64 - 1, 64)] = some bw ∧
      Pad bw = some bp ∧ ToBytes bp = Outcome.ok bp bs ∧
      Unpad (NewReader bs) = Outcome.ok rd () ∧
      readAll rd ([(5, 3), (1000, 10), (0, 0), (2 ^ 64 - 1, 64)].map Prod.snd) =
        some (rd1, [(5, 3), (1000, 10), (0, 0), (2 ^ 64 - 1, 64)].map Prod.fst) ∧
      rd1.Len = 0 :=
  C6_bitstream_roundtrip [(5, 3), (1000, 10), (0, 0), (2 ^ 64 - 1, 64)] (by decide)

/-- C7: `WriteBits` does not always append. On the writer holding the single bit `1` (the state
after `WriteBits(1, 1)` on a new writer), `WriteBits(1<<63, 63)` passes the check `nb < 63`,
returns normally and leaves 64 zero bits: the bit written before has been flipped, whereas the
lowest 63 bits of the value, all zero, should have followed it. -/
theorem C7_WriteBits_63_flips_written_bit :
    WriteBits NewWriter 1 1 = Outcome.ok { bytes := [0x80], len := 1 } () ∧
    BitWriter.WF { bytes := [0x80], len := 1 } ∧
    BitWriter.bits { bytes := [0x80], len := 1 } = [true] ∧
    WriteBits { bytes := [0x80], len := 1 } (2 ^ 63) 63 =
      Outcome.ok { bytes := [0, 0, 0, 0, 0, 0, 0, 0], len := 64 } () ∧
    BitWriter.bits { bytes := [0, 0, 0, 0, 0, 0, 0, 0], len := 64 } = List.replicate 64 false ∧
    BitWriter.bits { bytes := [0, 0, 0, 0, 0, 0, 0, 0], len := 64 } ≠
      BitWriter.bits { bytes := [0x80], len := 1 } ++ lowBits (2 ^ 63) 63 := by
  decide!

/-- C8: `WriteBits(w, n)` with `n >= 0` returns an error exactly when `n > 64`, or `n < 63` and
`w >= 2^n`; and when it returns an error the writer is in the state it was called in. -/
theorem C8_WriteBits_error_iff (b : BitWriter) (w n : Nat) :
    ((∃ b1 e, WriteBits b w (n : Int) = Outcome.error b1 e) ↔ (n > 64 ∨ (n < 63 ∧ w ≥ 2 ^ n))) ∧
    (∀ b1 e, WriteBits b w (n : Int) = Outcome.error b1 e → b1 = b) := by
  have hpow : n < 63 → u64 (1 <<< n) = 2 ^ n := by
    intro hn
    rw [u64, Nat.one_shiftLeft]
    exact Nat.mod_eq_of_lt (Nat.pow_lt_pow_right (by decide) (by omega))
  unfold WriteBits
  by_cases h1 : (n : Int) > 64
  · rw [if_pos h1]
    refine ⟨⟨fun _ => Or.inl (by omega), fun _ => ⟨b, _, rfl⟩⟩, ?_⟩
    intro b1 e h
    injection h with h _
    exact h.symm
  · rw [if_neg h1, if_neg (by omega : ¬ (n : Int) < 0)]
    simp only [Int.toNat_ofNat]
    by_cases h2 : (n : Int) < 63 ∧ w ≥ u64 (1 <<< n)
    · rw [if_pos h2]
      have hn : n < 63 := by omega
      refine ⟨⟨fun _ => Or.inr ⟨hn, by rw [← hpow hn]; exact h2.2⟩, fun _ => ⟨b, _, rfl⟩⟩, ?_⟩
      intro b1 e h
      injection h with h _
      exact h.symm
    · rw [if_neg h2]
      have hno : ∀ b1 e, (match writeLoop n b w n with
          | some b1 => Outcome.ok b1 ()
          | none => Outcome.panic) ≠ Outcome.error b1 e := by
        intro b1 e
        cases writeLoop n b w n <;> simp
      refine ⟨⟨fun ⟨b1, e, h⟩ => absurd h (hno b1 e), ?_⟩, fun b1 e h => absurd h (hno b1 e)⟩
      rintro (h | ⟨hn, hw⟩)
      · omega
      · exact absurd ⟨by omega, by rw [hpow hn]; exact hw⟩ h2

/-- C9: on a writer that satisfies the representation invariant and holds `L` bits, `Pad`
appends `k = 8 - L % 8` bits, `1 <= k <= 8`: a one then `k - 1` zeros; the new length is a
multiple of 8 and `ToBytes` returns the whole buffer; when `L` is a multiple of 8 the buffer
has grown by the byte `0x80`. -/
theorem C9_Pad (b : BitWriter) (hwf : b.WF) :
    ∃ b1 : BitWriter, Pad b = some b1 ∧
      1 ≤ 8 - b.len % 8 ∧ 8 - b.len % 8 ≤ 8 ∧
      b1.len = b.len + (8 - b.len % 8) ∧
      b1.bits = b.bits ++ true :: List.replicate (8 - b.len % 8 - 1) false ∧
      b1.len % 8 = 0 ∧ ToBytes b1 = Outcome.ok b1 b1.bytes ∧
      (b.len % 8 = 0 → b1.bytes = b.bytes ++ [0x80]) := by
  obtain ⟨b1, hp, hwf1, hlen1, hval1⟩ := Pad_spec b hwf
  have hal : b1.len % 8 = 0 := by omega
  refine ⟨b1, hp, by omega, by omega, hlen1, ?_, hal, ToBytes_aligned b1 hwf1 hal, ?_⟩
  · rw [bits_eq_lowBits b1 hwf1, hval1, hlen1,
      lowBits_append _ _ _ _ (Nat.pow_lt_pow_right (by decide) (by omega)),
      lowBits_marker _ (by omega) (by omega), bits_eq_lowBits b hwf]
  · intro hs
    rw [Pad_aligned b hs] at hp
    injection hp with hp
    rw [← hp]

/-- Witness for C9: the writer holding the three bits `101`. -/
theorem C9_Pad_witness :
    BitWriter.WF { bytes := [0xA0], len := 3 } ∧
    ∃ b1 : BitWriter, Pad { bytes := [0xA0], len := 3 } = some b1 ∧
      1 ≤ 8 - 3 % 8 ∧ 8 - 3 % 8 ≤ 8 ∧
      b1.len = 3 + (8 - 3 % 8) ∧
      b1.bits = BitWriter.bits { bytes := [0xA0], len := 3 } ++
        true :: List.replicate (8 - 3 % 8 - 1) false ∧
      b1.len % 8 = 0 ∧ ToBytes b1 = Outcome.ok b1 b1.bytes ∧
      (3 % 8 = 0 → b1.bytes = [0xA0] ++ [0x80]) :=
  ⟨by decide, C9_Pad { bytes := [0xA0], len := 3 } (by decide)⟩

/-- C10: on a reader whose buffer ends with the byte `last`: when `i` is the index of the lowest
set bit of `last`, `Unpad` returns normally, has lowered `len` by `i + 1`, has dropped the last
byte exactly when `i + 1 = 8`, and has kept the other bytes and `offset`; a non-zero `last` has
such an `i`; and when `last` is zero `Unpad` returns the error "no padding found" with the reader
as it was. -/
theorem C10_Unpad (init : List Byte) (last : Byte) (offset : Nat) (len : Int) :
    (∀ i, last.val.testBit i = true → (∀ j, j < i → last.val.testBit j = false) →
      i < 8 ∧
      Unpad { bytes := init ++ [last], offset := offset, len := len } =
        Outcome.ok
          { bytes := if i + 1 = 8 then init else init ++ [last]
            offset := offset
            len := len - ((i : Int) + 1) } ()) ∧
    (last.val ≠ 0 →
      ∃ i, last.val.testBit i = true ∧ ∀ j, j < i → last.val.testBit j = false) ∧
    (last.val = 0 →
      Unpad { bytes := init ++ [last], offset := offset, len := len } =
        Outcome.error { bytes := init ++ [last], offset := offset, len := len }
          Err.noPadding) := by
  refine ⟨?_, ?_, Unpad_zero init last offset len⟩
  · intro i hi hlow
    have hi8 : i < 8 := testBit_lt_eight last.isLt hi
    exact ⟨hi8, Unpad_of_mod init last offset len i hi8 (lowest_bit_mod hi hlow)⟩
  · intro hne
    have hex : ∃ i, last.val.testBit i = true := by
      by_contra hnone
      apply hne
      apply Nat.eq_of_testBit_eq
      intro i
      rw [Nat.zero_testBit]
      by_contra hb
      exact hnone ⟨i, by simpa using hb⟩
    classical
    refine ⟨Nat.find hex, Nat.find_spec hex, ?_⟩
    intro j hj
    have := Nat.find_min hex hj
    simpa using this

/-- Witness for C10: the reader over the single byte `0x80`, whose lowest set bit has index 7;
the byte is dropped and `len` goes from 8 to 0. -/
theorem C10_Unpad_witness :
    Unpad { bytes := [] ++ [(0x80 : Byte)], offset := 0, len := 8 } =
      Outcome.ok { bytes := if 7 + 1 = 8 then [] else [] ++ [(0x80 : Byte)], offset := 0,
                   len := 8 - (((7 : Nat) : Int) + 1) } () :=
  ((C10_Unpad [] 0x80 0 8).1 7 (by decide) (by decide)).2

/-- C11: on a reader with `offset <= len <= 8 * len(bytes)` and for `n >= 0`: `ReadBits(n)`
returns an error exactly when `n > 64` or `offset + n > len`, and then the reader is as it was;
otherwise it returns the integer whose binary digits, most significant first, are the `n` bits
from the bit of index `offset` on, and has advanced `offset` by `n`, which stays at most `len`;
`bytes` and `len` are never changed. -/
theorem C11_ReadBits (b : BitReader) (n : Nat) (hcur : (b.offset : Int) ≤ b.len)
    (hbuf : b.len ≤ 8 * (b.bytes.length : Int)) :
    ((∃ b1 e, ReadBits b (n : Int) = Outcome.error b1 e) ↔
      (n > 64 ∨ (b.offset : Int) + n > b.len)) ∧
    (∀ b1 e, ReadBits b (n : Int) = Outcome.error b1 e → b1 = b) ∧
    (¬ (n > 64 ∨ (b.offset : Int) + n > b.len) →
      ReadBits b (n : Int) =
        Outcome.ok { b with offset := b.offset + n }
          (bitsValue (bitsFrom b.bytes b.offset n))) ∧
    (∀ b1, ((∃ v, ReadBits b (n : Int) = Outcome.ok b1 v) ∨
        (∃ e, ReadBits b (n : Int) = Outcome.error b1 e)) →
      (b1.offset : Int) ≤ b1.len ∧ b1.len = b.len ∧ b1.bytes = b.bytes) := by
  by_cases hfail : n > 64 ∨ (b.offset : Int) + n > b.len
  · have herr : ∃ e, ReadBits b (n : Int) = Outcome.error b e := by
      unfold ReadBits
      by_cases h64 : (n : Int) > 64
      · exact ⟨_, by rw [if_pos h64]⟩
      · exact ⟨_, by rw [if_neg h64, if_pos (by omega)]⟩
    obtain ⟨e, he⟩ := herr
    refine ⟨⟨fun _ => hfail, fun _ => ⟨b, e, he⟩⟩, ?_, fun h => absurd hfail h, ?_⟩
    · intro b1 e1 h
      rw [he] at h
      injection h with h _
      exact h.symm
    · rintro b1 (⟨v, h⟩ | ⟨e1, h⟩)
      · rw [he] at h
        exact absurd h (by simp)
      · rw [he] at h
        injection h with h _
        subst h
        exact ⟨hcur, rfl, rfl⟩
  · have h64 : n ≤ 64 := by omega
    have hlen : (b.offset : Int) + n ≤ b.len := by omega
    have hok := ReadBits_spec b n h64 hlen hbuf
    rw [fieldAt_eq_bitsValue b.bytes b.offset n (by omega)] at hok
    refine ⟨⟨fun ⟨b1, e, h⟩ => ?_, fun h => absurd h hfail⟩, ?_, fun _ => hok, ?_⟩
    · rw [hok] at h
      exact absurd h (by simp)
    · intro b1 e h
      rw [hok] at h
      exact absurd h (by simp)
    · rintro b1 (⟨v, h⟩ | ⟨e1, h⟩)
      · rw [hok] at h
        injection h with h _
        subst h
        refine ⟨?_, rfl, rfl⟩
        simp only
        push_cast
        omega
      · rw [hok] at h
        exact absurd h (by simp)

/-- Witness for C11: reading 4 bits at offset 2 of the byte `0xB4`, of which 7 bits are
valid. -/
theorem C11_ReadBits_witness :
    ReadBits { bytes := [0xB4], offset := 2, len := 7 } ((4 : Nat) : Int) =
      Outcome.ok { bytes := [0xB4], offset := 2 + 4, len := 7 }
        (bitsValue (bitsFrom [0xB4] 2 4)) :=
  (C11_ReadBits { bytes := [0xB4], offset := 2, len := 7 } 4 (by decide) (by decide)).2.2.1
    (by decide)

/-- C20: `Unpad` is not total. On the reader made by `NewReader` over an empty slice,
`last` is `-1` and the expression `b.bytes[last]` panics; `Unpad` panics exactly on the readers
whose buffer is empty. -/
theorem C20_Unpad_panics_on_empty :
    Unpad (NewReader []) = Outcome.panic ∧
    ∀ b : BitReader, Unpad b = Outcome.panic ↔ b.bytes = [] := by
  refine ⟨rfl, ?_⟩
  intro b
  constructor
  · intro h
    by_contra hne
    rcases List.eq_nil_or_concat b.bytes with hnil | ⟨init, last, hcat⟩
    · exact hne hnil
    · rw [List.concat_eq_append] at hcat
      unfold Unpad at h
      rw [hcat, List.getLast?_concat] at h
      exact unpadLoop_ne_panic _ _ _ _ h
  · intro h
    unfold Unpad
    rw [h]
    rfl

end bits_io
